import Mathlib

/-!
Verification development for the gauge-python static parsing/refactoring core
(src/getgauge/parser_redbaron.py).  The RedBaron concrete syntax tree is
shallowly embedded as a lossless tree whose nodes carry their exact source
text; serializing (dumps) concatenates those texts, and a node's absolute
bounding box is the position of its text inside the serialized file, which is
the documented meaning of RedBaron's absolute_bounding_box.
-/

/-- Convenience characters, written via code points. -/
def nlChar : Char := Char.ofNat 10

def bsChar : Char := Char.ofNat 92

def dqChar : Char := Char.ofNat 34

def sqChar : Char := Char.ofNat 39

/-- Modelled from the spec: the Span value of getgauge.internal (that module is
not under src); four integer fields, section 3 of the spec. -/
structure Span where
  startLine : Int
  startCol : Int
  endLine : Int
  endCol : Int
deriving DecidableEq, Repr

/-- RedBaron absolute_bounding_box data: 1-based line and column of the first
and of the last character of a node. -/
structure BBox where
  topLine : Int
  topCol : Int
  botLine : Int
  botCol : Int
deriving DecidableEq, Repr

/-- Embeds RedbaronPythonFile._span_for_node (parser_redbaron.py lines 36-54):
the bounding box is turned into a Span with 0-based columns via
max(0, column - 1) on the start and max(0, column) on the end; a node without
bounding-box metadata (AttributeError) yields the sentinel Span(0,0,0,0). -/
def span_for_node : Option BBox → Span
  | some box => ⟨box.topLine, max 0 (box.topCol - 1), box.botLine, max 0 box.botCol⟩
  | none => ⟨0, 0, 0, 0⟩

/-! ## The concrete syntax tree

Each node stores the exact source text of every formatting element, so that
dumps reproduces the file text by concatenation (RedBaron is full fidelity).
String literal nodes store their raw text including the quotes, which is what
RedBaron exposes as StringNode.value. -/

/-- Element of a list literal as used in a step decorator argument: a string
literal (raw text including quotes) or any other expression (raw text plus
whether Python literal evaluation of it succeeds, e.g. a number). -/
inductive ListElem
  | str (raw : String)
  | other (raw : String) (evaluable : Bool)
deriving DecidableEq, Repr

/-- One element of a list literal together with its surrounding formatting
(text before and after the element, commas excluded). -/
structure ListItem where
  pre : String
  elem : ListElem
  post : String
deriving DecidableEq, Repr

/-- Expression node in a decorator call argument position. -/
inductive ExprNode
  | str (raw : String)
  | lst (openB : String) (items : List ListItem) (closeB : String)
  | other (raw : String) (evaluable : Bool)
deriving DecidableEq, Repr

/-- Call argument node: the expression with its surrounding formatting. -/
structure CallArg where
  pre : String
  value : ExprNode
  post : String
deriving DecidableEq, Repr

/-- Decorator node with a call, e.g. the text at-sign, name, parenthesis,
arguments, closing parenthesis and end of line.  pre holds the text before the
name (the at-sign and indentation), callClose the closing parenthesis and the
rest of the decorator line. -/
structure Decorator where
  pre : String
  name : String
  callOpen : String
  args : List CallArg
  callClose : String
deriving DecidableEq, Repr

/-- Function parameter: name with surrounding text; post carries any
annotation or default text (commas excluded, they are interleaved by dumps). -/
structure Param where
  pre : String
  name : String
  post : String
deriving DecidableEq, Repr

instance : Inhabited Param := ⟨⟨"", "", ""⟩⟩

/-- Top-level function definition node: decorators, the header text (from the
def keyword through the opening parenthesis), the function name, the parameter
list, and the footer text (from the closing parenthesis through the body). -/
structure DefNode where
  decorators : List Decorator
  header : String
  name : String
  params : List Param
  footer : String
deriving DecidableEq, Repr

/-- Top-level node of a parsed file. -/
inductive TopNode
  | def_ (d : DefNode)
  | other (text : String)
deriving DecidableEq, Repr

/-- Embeds RedbaronPythonFile: a file path plus the parsed tree. -/
structure PythonFile where
  file_path : String
  py_tree : List TopNode
deriving DecidableEq, Repr

/-! ## Serialization (dumps) -/

/-- Concatenation of a list of strings. -/
def catList (xs : List String) : String := xs.foldr (· ++ ·) ""

/-- Comma-interleaved concatenation, used for proxy lists whose separators are
commas (call arguments, list elements, parameters). -/
def interComma : List String → String
  | [] => ""
  | [x] => x
  | x :: y :: t => x ++ "," ++ interComma (y :: t)

def elemDumps : ListElem → String
  | .str raw => raw
  | .other raw _ => raw

def itemDumps (it : ListItem) : String := it.pre ++ elemDumps it.elem ++ it.post

def exprDumps : ExprNode → String
  | .str raw => raw
  | .lst openB items closeB => openB ++ interComma (items.map itemDumps) ++ closeB
  | .other raw _ => raw

def argDumps (a : CallArg) : String := a.pre ++ exprDumps a.value ++ a.post

def decDumps (d : Decorator) : String :=
  d.pre ++ d.name ++ d.callOpen ++ interComma (d.args.map argDumps) ++ d.callClose

def paramDumps (p : Param) : String := p.pre ++ p.name ++ p.post

def paramsDumps (ps : List Param) : String := interComma (ps.map paramDumps)

def defDumps (d : DefNode) : String :=
  catList (d.decorators.map decDumps) ++ d.header ++ paramsDumps d.params ++ d.footer

def topDumps : TopNode → String
  | .def_ d => defDumps d
  | .other text => text

/-- Embeds RedbaronPythonFile.get_code (lines 134-137): serialize the tree. -/
def get_code (pf : PythonFile) : String := catList (pf.py_tree.map topDumps)

/-! ## Python literal evaluation (to_python) -/

/-- Value of a literal list element after Python evaluation: a string, or some
other evaluable literal (a number, a nested list, ...). -/
inductive PyElem
  | str (s : String)
  | other
deriving DecidableEq, Repr

/-- Python value of a step decorator argument after to_python: a string, a
list, or some other literal type. -/
inductive PyVal
  | str (s : String)
  | list (xs : List PyElem)
  | other
deriving DecidableEq, Repr

/-- Evaluation of a simple Python string literal: the raw text must be wrapped
in a matching pair of quotes, with no escape, quote or newline characters
inside.  Fancier literals count as evaluation failures in this model. -/
def unquote (raw : String) : Option String :=
  match raw.data with
  | [] => none
  | q :: rest =>
    if (q == dqChar || q == sqChar)
        && !rest.isEmpty
        && rest.getLast? == some q
        && rest.dropLast.all (fun c => !(c == q || c == bsChar || c == nlChar)) then
      some ⟨rest.dropLast⟩
    else none

def elemToPython : ListElem → Option PyElem
  | .str raw => (unquote raw).map PyElem.str
  | .other _ evaluable => if evaluable then some PyElem.other else none

/-- Embeds args[0].value.to_python() (line 73): literal evaluation of the
argument expression; none models a raised ValueError or SyntaxError. -/
def toPython : ExprNode → Option PyVal
  | .str raw => (unquote raw).map PyVal.str
  | .lst _ items _ => (items.mapM fun it => elemToPython it.elem).map PyVal.list
  | .other _ evaluable => if evaluable then some PyVal.other else none

/-- Embeds isinstance(step, six.string_types + (list,)) (line 76). -/
def isStepVal : PyVal → Bool
  | .str _ => true
  | .list _ => true
  | .other => false

/-- Python truthiness of the resolved step value, used by the guard
if step: at line 89 (empty strings and empty lists are falsy). -/
def pyTruthy : PyVal → Bool
  | .str s => !s.isEmpty
  | .list xs => !xs.isEmpty
  | .other => true

/-! ## Discovery (iter_steps) -/

/-- Modelled from the spec: the FunctionSteps record of getgauge.internal
(that module is not under src); resolved identifiers, function name, file path
and a lazily computed span (spec sections 2 and 3). -/
structure FunctionSteps where
  steps : PyVal
  func : String
  file_path : String
  span : Unit → Span

/-- Embeds RedbaronPythonFile._iter_step_func_decorators (lines 56-64): walk
the top-level nodes carrying the running index, and yield each def node with
its first decorator named step. -/
def stepCandidatesAux (i : Nat) : List TopNode → List (Nat × DefNode × Decorator)
  | [] => []
  | TopNode.def_ d :: rest =>
    (match d.decorators.find? (fun dec => dec.name == "step") with
     | some dec => [(i, d, dec)]
     | none => []) ++ stepCandidatesAux (i + 1) rest
  | TopNode.other _ :: rest => stepCandidatesAux (i + 1) rest

def stepCandidates (nodes : List TopNode) : List (Nat × DefNode × Decorator) :=
  stepCandidatesAux 0 nodes

/-- Embeds RedbaronPythonFile._step_decorator_args (lines 66-82): the resolved
value (none models Python None) together with the list of logged error
messages. -/
def step_decorator_args (file_path : String) (dec : Decorator) :
    Option PyVal × List String :=
  match dec.args with
  | [a] =>
    match toPython a.value with
    | some v =>
      if isStepVal v then (some v, [])
      else (none, ["Decorator step accepts either a string or a list of strings - " ++ file_path])
    | none =>
      (none, ["Decorator step accepts either a string or a list of strings - " ++ file_path])
  | _ => (none, ["Decorator step accepts only one argument - " ++ file_path])

/-- Text of the top-level nodes in front of index i, used for bounding-box
computation. -/
def beforeNodes (pf : PythonFile) (i : Nat) : String :=
  catList ((pf.py_tree.take i).map topDumps)

/-- Number of the line on which the character following cs sits (1-based). -/
def posLine (cs : List Char) : Nat := 1 + cs.count nlChar

/-- Length of the last line of cs, i.e. the 0-based column of the character
following cs. -/
def lastLineLen (cs : List Char) : Nat :=
  (cs.reverse.takeWhile (fun c => !(c == nlChar))).length

/-- Bounding box of a node whose text is M and which is preceded in the file
by the text P: 1-based positions of the first and of the last character. -/
def bboxOf (P M : String) : BBox :=
  let pd := P.data
  let md := pd ++ M.data.dropLast
  ⟨(posLine pd : Nat), (lastLineLen pd + 1 : Nat), (posLine md : Nat), (lastLineLen md + 1 : Nat)⟩

/-- Bounding box of top-level node i. -/
def defBox (pf : PythonFile) (i : Nat) : Option BBox :=
  (pf.py_tree[i]?).map fun n => bboxOf (beforeNodes pf i) (topDumps n)

/-- One step of iter_steps (lines 84-90): resolve the candidate's decorator
argument and, when the result is truthy, build the FunctionSteps record with a
lazy span over the function node. -/
def stepOfCandidate (pf : PythonFile) (c : Nat × DefNode × Decorator) :
    Option FunctionSteps :=
  match (step_decorator_args pf.file_path c.2.2).1 with
  | some v =>
    if pyTruthy v then
      some ⟨v, c.2.1.name, pf.file_path, fun _ => span_for_node (defBox pf c.1)⟩
    else none
  | none => none

/-- Embeds RedbaronPythonFile.iter_steps (lines 84-90). -/
def iter_steps (pf : PythonFile) : List FunctionSteps :=
  (stepCandidates pf.py_tree).filterMap (stepOfCandidate pf)

/-! ## Locating a step for refactoring (find_step_node) -/

/-- Location of a matched step literal: index of the top-level def node, and
for a list literal the index of the matched element. -/
structure StepLoc where
  nodeIdx : Nat
  elemIdx : Option Nat
deriving DecidableEq, Repr

/-- Embeds Python list.index on the resolved list (line 101): index of the
first element equal to the target. -/
def pyIndex (a : PyElem) : List PyElem → Nat
  | [] => 0
  | b :: t => if a = b then 0 else 1 + pyIndex a t

/-- Embeds the loop of RedbaronPythonFile._find_step_node (lines 92-103).  The
argument node access decorator.call.value[0] at line 97 raises IndexError when
the decorator call has no arguments; this is modelled by the error result. -/
def findStepAux (fp old : String) : List (Nat × DefNode × Decorator) → Except String (Option StepLoc)
  | [] => .ok none
  | (i, _, dec) :: rest =>
    let step := (step_decorator_args fp dec).1
    match dec.args with
    | [] => .error "IndexError: list index out of range"
    | _ :: _ =>
      if step = some (.str old) then .ok (some ⟨i, none⟩)
      else
        match step with
        | some (.list xs) =>
          if PyElem.str old ∈ xs then .ok (some ⟨i, some (pyIndex (.str old) xs)⟩)
          else findStepAux fp old rest
        | _ => findStepAux fp old rest

/-- Embeds RedbaronPythonFile._find_step_node (lines 92-103). -/
def find_step_node (pf : PythonFile) (old : String) : Except String (Option StepLoc) :=
  findStepAux pf.file_path old (stepCandidates pf.py_tree)

/-! ## Refactoring (refactor_step) -/

/-- Decorators whose name is not step (Bool form, for takeWhile/dropWhile). -/
def notStepDec (dec : Decorator) : Bool := !(dec.name == "step")

/-- Decomposition of the serialized file around the step literal node located
by loc: text before the node, the node's own raw text, text after it.  This is
what the node's absolute position in the file is computed from. -/
def locParts (pf : PythonFile) (loc : StepLoc) : Option (String × String × String) :=
  match pf.py_tree[loc.nodeIdx]? with
  | some (TopNode.def_ d) =>
    let before := catList ((pf.py_tree.take loc.nodeIdx).map topDumps)
    let after := catList ((pf.py_tree.drop (loc.nodeIdx + 1)).map topDumps)
    match d.decorators.dropWhile notStepDec with
    | [] => none
    | dec :: postDecs =>
      match dec.args with
      | [] => none
      | a :: restArgs =>
        let lead := before ++ catList ((d.decorators.takeWhile notStepDec).map decDumps)
          ++ dec.pre ++ dec.name ++ dec.callOpen ++ a.pre
        let argsTail := catList ((restArgs.map argDumps).map (fun s => "," ++ s))
        let tail := a.post ++ argsTail ++ dec.callClose ++ catList (postDecs.map decDumps)
          ++ d.header ++ paramsDumps d.params ++ d.footer ++ after
        match loc.elemIdx, a.value with
        | none, ExprNode.str raw => some (lead, raw, tail)
        | none, ExprNode.other raw _ => some (lead, raw, tail)
        | none, ExprNode.lst _ _ _ => none
        | some j, ExprNode.lst openB items closeB =>
          match items[j]? with
          | some it =>
            some (lead ++ openB ++ catList ((items.take j).map (fun x => itemDumps x ++ ",")) ++ it.pre,
                  elemDumps it.elem,
                  it.post ++ catList ((items.drop (j + 1)).map (fun x => "," ++ itemDumps x)) ++ closeB ++ tail)
          | none => none
        | some _, _ => none
  | _ => none

/-- Bounding box of the located step literal node. -/
def stepBox (pf : PythonFile) (loc : StepLoc) : Option BBox :=
  (locParts pf loc).map fun t => bboxOf t.1 t.2.1

/-- Decomposition of the serialized file around the parameter list of the def
node at index i. -/
def paramsParts (pf : PythonFile) (i : Nat) : Option (String × String × String) :=
  match pf.py_tree[i]? with
  | some (TopNode.def_ d) =>
    some (catList ((pf.py_tree.take i).map topDumps) ++ catList (d.decorators.map decDumps) ++ d.header,
          paramsDumps d.params,
          d.footer ++ catList ((pf.py_tree.drop (i + 1)).map topDumps))
  | _ => none

/-- Bounding box of the parameter list of the def node at index i. -/
def paramsBox (pf : PythonFile) (i : Nat) : Option BBox :=
  (paramsParts pf i).map fun t => bboxOf t.1 t.2.1

/-- The def node at top-level index i, if any. -/
def defAt (pf : PythonFile) (i : Nat) : Option DefNode :=
  match pf.py_tree[i]? with
  | some (TopNode.def_ d) => some d
  | _ => none

/-- Replace the def node at index i via f. -/
def updateDef (pf : PythonFile) (i : Nat) (f : DefNode → Option DefNode) : Option PythonFile :=
  match pf.py_tree[i]? with
  | some (TopNode.def_ d) =>
    (f d).map fun d1 => ⟨pf.file_path, pf.py_tree.set i (TopNode.def_ d1)⟩
  | _ => none

/-- Rewrite the first decorator named step in the list via f. -/
def modifyStepDec (f : Decorator → Option Decorator) : List Decorator → Option (List Decorator)
  | [] => none
  | dec :: rest =>
    if dec.name == "step" then (f dec).map (· :: rest)
    else (modifyStepDec f rest).map (dec :: ·)

/-- Overwrite the raw text of a list element with newRaw. -/
def replElem (e : ListElem) (newRaw : String) : ListElem :=
  match e with
  | .str _ => .str newRaw
  | .other _ evaluable => .other newRaw evaluable

/-- Overwrite the raw text of the located literal (whole literal, or the list
element at index j) with newRaw; this models the assignment step.value = ...
at line 116. -/
def replaceExprRaw (e : ExprNode) (j : Option Nat) (newRaw : String) : Option ExprNode :=
  match j, e with
  | none, .str _ => some (.str newRaw)
  | none, .other _ evaluable => some (.other newRaw evaluable)
  | none, .lst _ _ _ => none
  | some jj, .lst openB items closeB =>
    match items[jj]? with
    | some it => some (.lst openB (items.set jj ⟨it.pre, replElem it.elem newRaw, it.post⟩) closeB)
    | none => none
  | some _, _ => none

/-- In-place mutation of the step literal located by loc. -/
def mutateStepRaw (pf : PythonFile) (loc : StepLoc) (newRaw : String) : Option PythonFile :=
  updateDef pf loc.nodeIdx fun d =>
    (modifyStepDec
      (fun dec =>
        match dec.args with
        | a :: rest =>
          (replaceExprRaw a.value loc.elemIdx newRaw).map fun e1 =>
            { dec with args := ⟨a.pre, e1, a.post⟩ :: rest }
        | [] => none)
      d.decorators).map fun ds => { d with decorators := ds }

/-- In-place overwrite of the parameter list of the def node at index i
(models the assignment func.arguments = ... at line 130). -/
def setParams (pf : PythonFile) (i : Nat) (ps : List Param) : Option PythonFile :=
  updateDef pf i fun d => some { d with params := ps }

/-- Result of RedBaron reparsing a comma-space joined parameter string: bare
name parameters, the later ones carrying the space after the comma. -/
def mkParams : List String → List Param
  | [] => []
  | n :: rest => ⟨"", n, ""⟩ :: rest.map fun m => ⟨" ", m, ""⟩

/-- Embeds str.join with separator comma-space (line 130). -/
def joinCommaSpace : List String → String
  | [] => ""
  | [x] => x
  | x :: y :: t => x ++ ", " ++ joinCommaSpace (y :: t)

/-- Embeds all(i == v for (i, v) in enumerate(move_param_from_idx)) at
line 120, carrying the enumeration counter. -/
def idCheckAux (i : Nat) : List Int → Bool
  | [] => true
  | v :: rest => ((i : Int) == v) && idCheckAux (i + 1) rest

/-- Embeds the loop of lines 124-129 building the new parameter names; an
out-of-range non-negative index models the IndexError raised by
old_params[move_from]. -/
def buildNamesAux (old_params : List Param) (i : Nat) : List Int → Except String (List String)
  | [] => .ok []
  | mv :: rest =>
    match (if mv < 0 then
             Except.ok ("arg" ++ toString (i + 1))
           else
             match old_params[mv.toNat]? with
             | some p => Except.ok p.name
             | none => Except.error "IndexError: list index out of range") with
    | .error e => .error e
    | .ok name => (buildNamesAux old_params (i + 1) rest).map (name :: ·)

/-- Fuel-indexed left-to-right non-overlapping replacement (structural
recursion on the fuel, so that the kernel can evaluate it). -/
def pyReplaceAux (pat rep : List Char) : Nat → List Char → List Char
  | _, [] => []
  | 0, s => s
  | fuel + 1, c :: rest =>
    if pat.isPrefixOf (c :: rest) then
      rep ++ pyReplaceAux pat rep fuel ((c :: rest).drop pat.length)
    else
      c :: pyReplaceAux pat rep fuel rest

/-- Interleaving used by Python str.replace with an empty pattern. -/
def interleaveRep (rep : List Char) : List Char → List Char
  | [] => rep
  | c :: cs => rep ++ c :: interleaveRep rep cs

/-- Embeds Python str.replace(old, new): all non-overlapping occurrences are
replaced left to right; an empty pattern inserts the replacement around every
character. -/
def pyReplace (s pat rep : String) : String :=
  if pat.data.isEmpty then ⟨interleaveRep rep.data s.data⟩
  else ⟨pyReplaceAux pat.data rep.data s.data.length s.data⟩

/-- Embeds RedbaronPythonFile.refactor_step (lines 105-132): locate the step
with old_text, rewrite the literal in place recording a (span, new text) edit,
then unless move_param_from_idx is the identity on the old parameter list,
rewrite the parameter list from the move list and record a second edit.  The
error results model the exceptions the Python code can raise (IndexError from
line 97 or line 128); AttributeError branches are unreachable for locations
produced by find_step_node. -/
def refactor_step (pf : PythonFile) (old_text new_text : String)
    (move_param_from_idx : List Int) :
    Except String (List (Span × String) × PythonFile) :=
  match find_step_node pf old_text with
  | .error e => .error e
  | .ok none => .ok ([], pf)
  | .ok (some loc) =>
    match locParts pf loc with
    | none => .error "AttributeError"
    | some (_, raw, _) =>
      let step_span := span_for_node (stepBox pf loc)
      let newRaw := pyReplace raw old_text new_text
      match mutateStepRaw pf loc newRaw with
      | none => .error "AttributeError"
      | some pf1 =>
        let diffs := [(step_span, newRaw)]
        match defAt pf1 loc.nodeIdx with
        | none => .error "AttributeError"
        | some d1 =>
          let old_params := d1.params
          if old_params.length == move_param_from_idx.length
              && idCheckAux 0 move_param_from_idx then
            .ok (diffs, pf1)
          else
            match buildNamesAux old_params 0 move_param_from_idx with
            | .error e => .error e
            | .ok new_params =>
              let params_span := span_for_node (paramsBox pf1 loc.nodeIdx)
              match setParams pf1 loc.nodeIdx (mkParams new_params) with
              | none => .error "AttributeError"
              | some pf2 =>
                .ok (diffs ++ [(params_span, paramsDumps (mkParams new_params))], pf2)

/-! ## Parsing (RedBaron fragment)

The parse engine itself is the external RedBaron library (not part of this
repository).  Modelled from the spec: SourceTree parsing is full fidelity
(spec sections 2, 4.1 and 6); the model below parses the fragment of Python
used by step implementations (top-level functions, decorators written as a
simple literal call whose strings carry no escapes or commas) into the tree
above, failing on text outside the fragment, and every piece of text ends up
stored in some node so dumps reproduces the input. -/

def isSpaceChar (c : Char) : Bool := c == ' '

def isIdentChar (c : Char) : Bool := c.isAlphanum || c == '_'

/-- Split off the first line (including its newline) of a character list. -/
def takeLine : List Char → List Char × List Char
  | [] => ([], [])
  | c :: cs =>
    if c == nlChar then ([c], cs)
    else
      let p := takeLine cs
      (c :: p.1, p.2)

/-- Fuel-indexed splitting of a character list into lines; when the fuel runs
out the remaining text becomes one final line, so that joining the lines always
restores the input. -/
def splitLinesF : Nat → List Char → List (List Char)
  | _, [] => []
  | 0, c :: cs => [c :: cs]
  | fuel + 1, c :: cs =>
    let p := takeLine (c :: cs)
    p.1 :: splitLinesF fuel p.2

def splitLines (cs : List Char) : List (List Char) := splitLinesF cs.length cs

/-- Prepend a character to the first segment of a segment list. -/
def consHead (c : Char) : List (List Char) → List (List Char)
  | s :: rest => (c :: s) :: rest
  | [] => [[c]]

/-- Split a character list at every top-level comma (commas inside quotes,
brackets or parentheses are kept); joining the pieces back with commas
restores the input whatever the starting depth and quote state. -/
def splitTop (d : Nat) (q : Option Char) : List Char → List (List Char)
  | [] => [[]]
  | c :: cs =>
    match q with
    | some qc => consHead c (splitTop d (if c == qc then none else some qc) cs)
    | none =>
      if c == ',' && d == 0 then [] :: splitTop 0 none cs
      else if c == dqChar || c == sqChar then consHead c (splitTop d (some c) cs)
      else if c == '[' || c == '(' then consHead c (splitTop (d + 1) q cs)
      else if c == ']' || c == ')' then consHead c (splitTop (d - 1) q cs)
      else consHead c (splitTop d q cs)

/-- Split at top-level commas starting outside any bracket or quote. -/
def splitComma (cs : List Char) : List (List Char) := splitTop 0 none cs

/-- Character-list counterpart of interComma. -/
def joinComma : List (List Char) → List Char
  | [] => []
  | [s] => s
  | s :: t :: rest => s ++ ',' :: joinComma (t :: rest)

/-- Split a list at the first occurrence of c: some (a, b) with a ++ c :: b
the input. -/
def breakAt (c : Char) : List Char → Option (List Char × List Char)
  | [] => none
  | x :: xs =>
    if x == c then some ([], xs)
    else (breakAt c xs).map fun p => (x :: p.1, p.2)

/-- Split a list at the last occurrence of c. -/
def breakAtLast (c : Char) (l : List Char) : Option (List Char × List Char) :=
  (breakAt c l.reverse).map fun p => (p.2.reverse, p.1.reverse)

/-- Decompose a segment into leading spaces, middle, trailing spaces. -/
def trimParts (seg : List Char) : List Char × List Char × List Char :=
  let rest := seg.dropWhile isSpaceChar
  (seg.takeWhile isSpaceChar,
   (rest.reverse.dropWhile isSpaceChar).reverse,
   (rest.reverse.takeWhile isSpaceChar).reverse)

def isNumLit (mid : List Char) : Bool := !mid.isEmpty && mid.all Char.isDigit

/-- Parse the token of one element of a list literal. -/
def parseElemTok : List Char → ListElem
  | c :: tail =>
    if c == dqChar || c == sqChar then ListElem.str ⟨c :: tail⟩
    else ListElem.other ⟨c :: tail⟩ (isNumLit (c :: tail))
  | [] => ListElem.other ⟨[]⟩ (isNumLit [])

/-- Parse one element of a list literal. -/
def parseItem (seg : List Char) : ListItem :=
  let t := trimParts seg
  ⟨⟨t.1⟩, parseElemTok t.2.1, ⟨t.2.2⟩⟩

def parseItems (cs : List Char) : List ListItem :=
  if cs.isEmpty then [] else (splitComma cs).map parseItem

/-- Parse a bracketed list literal candidate given its closing character. -/
def parseBracket (t : List Char) : Option Char → ExprNode
  | some d =>
    if d == ']' then ExprNode.lst "[" (parseItems t.dropLast) "]"
    else ExprNode.other ⟨'[' :: t⟩ (isNumLit ('[' :: t))
  | none => ExprNode.other ⟨'[' :: t⟩ (isNumLit ('[' :: t))

/-- Parse an argument expression from its trimmed text. -/
def parseExpr : List Char → ExprNode
  | c :: t =>
    if c == dqChar || c == sqChar then ExprNode.str ⟨c :: t⟩
    else if c == '[' then parseBracket t t.getLast?
    else ExprNode.other ⟨c :: t⟩ (isNumLit (c :: t))
  | [] => ExprNode.other ⟨[]⟩ (isNumLit [])

def parseArg (seg : List Char) : CallArg :=
  let t := trimParts seg
  ⟨⟨t.1⟩, parseExpr t.2.1, ⟨t.2.2⟩⟩

def parseArgs (cs : List Char) : List CallArg :=
  if cs.isEmpty then [] else (splitComma cs).map parseArg

/-- Parse a decorator line (a line starting with an at-sign): name, opening
parenthesis, arguments, closing parenthesis and trailing text. -/
def parseDecoLine (l : List Char) : Option Decorator :=
  match l with
  | c :: t =>
    if c == '@' then
      let nm := t.takeWhile isIdentChar
      match t.dropWhile isIdentChar with
      | p :: u =>
        if p == '(' then
          (breakAtLast ')' u).map fun q =>
            ⟨"@", ⟨nm⟩, "(", parseArgs q.1, ⟨')' :: q.2⟩⟩
        else none
      | [] => none
    else none
  | [] => none

def parseParams (cs : List Char) : List Param :=
  if cs.isEmpty then []
  else (splitComma cs).map fun seg =>
    let pre := seg.takeWhile isSpaceChar
    let rest := seg.dropWhile isSpaceChar
    ⟨⟨pre⟩, ⟨rest.takeWhile isIdentChar⟩, ⟨rest.dropWhile isIdentChar⟩⟩

/-- Parse a def header line: header text through the opening parenthesis, the
function name, the parameter list, and the footer start (closing parenthesis
through end of line). -/
def parseDefLine (l : List Char) : Option (String × String × List Param × String) :=
  match breakAt '(' l with
  | some (h, t) =>
    match breakAtLast ')' t with
    | some (m, r) =>
      some (⟨h ++ ['(']⟩, ⟨(h.drop 4).takeWhile isIdentChar⟩, parseParams m, ⟨')' :: r⟩)
    | none => none
  | none => none

def isDecoLine (l : List Char) : Bool :=
  match l with
  | c :: _ => c == '@'
  | [] => false

def isDefLine (l : List Char) : Bool := l.take 4 == ['d', 'e', 'f', ' ']

def isBodyLine (l : List Char) : Bool :=
  match l with
  | c :: _ => c == ' ' || c == Char.ofNat 9
  | [] => false

def joinLines (ls : List (List Char)) : String := ⟨ls.flatten⟩

/-- Fuel-indexed grouping of the lines of a file into top-level nodes: a run
of decorator lines followed by a def line and its indented body becomes a def
node, a bare def line with its body likewise, and any other line becomes an
opaque top-level node. -/
def groupNodesF : Nat → List (List Char) → Option (List TopNode)
  | _, [] => some []
  | 0, _ :: _ => none
  | fuel + 1, l :: ls =>
    if isDecoLine l then
      let decoLines := l :: ls.takeWhile isDecoLine
      match ls.dropWhile isDecoLine with
      | [] => none
      | dl :: rest2 =>
        if isDefLine dl then
          let body := rest2.takeWhile isBodyLine
          let rest3 := rest2.dropWhile isBodyLine
          match decoLines.mapM parseDecoLine, parseDefLine dl, groupNodesF fuel rest3 with
          | some decs, some (hdr, nm, ps, ftr), some ns =>
            some (TopNode.def_ ⟨decs, hdr, nm, ps, ftr ++ joinLines body⟩ :: ns)
          | _, _, _ => none
        else none
    else if isDefLine l then
      let body := ls.takeWhile isBodyLine
      let rest := ls.dropWhile isBodyLine
      match parseDefLine l, groupNodesF fuel rest with
      | some (hdr, nm, ps, ftr), some ns =>
        some (TopNode.def_ ⟨[], hdr, nm, ps, ftr ++ joinLines body⟩ :: ns)
      | _, _ => none
    else (groupNodesF fuel ls).map (TopNode.other ⟨l⟩ :: ·)

/-- Embeds RedbaronPythonFile.parse with supplied content (lines 8-29):
build the tree, or an absent result when the text is outside the modelled
fragment. -/
def parse (file_path content : String) : Option PythonFile :=
  (groupNodesF (splitLines content.data).length (splitLines content.data)).map
    fun ns => ⟨file_path, ns⟩

/-! ## Addressing a Span inside a text -/

/-- Offset of the character that follows the n-th newline of cs (0 when n is
0, i.e. the start of the text). -/
def skipNL : List Char → Nat → Nat
  | _, 0 => 0
  | [], _ + 1 => 0
  | c :: cs, n + 1 => if c == nlChar then 1 + skipNL cs n else 1 + skipNL cs (n + 1)

/-- Byte offset of a (1-based line, 0-based column) position. -/
def offsetAt (cs : List Char) (line col : Int) : Nat :=
  skipNL cs (line - 1).toNat + col.toNat

/-- The text a Span addresses inside a file text: the characters between the
offsets of its start and end positions. -/
def spanSlice (s : String) (sp : Span) : String :=
  ⟨(s.data.drop (offsetAt s.data sp.startLine sp.startCol)).take
    (offsetAt s.data sp.endLine sp.endCol - offsetAt s.data sp.startLine sp.startCol)⟩

/-! ## Statement-side definitions and concrete example trees -/

/-- Written from the wording of claim C4: the new parameter name at position i
is arg(i+1) when the move entry is negative, and otherwise the name of the old
parameter at the index given by the move entry. -/
def specNamesAux (old : List Param) (i : Nat) : List Int → List String
  | [] => []
  | mv :: rest =>
    (if mv < 0 then "arg" ++ toString (i + 1)
     else ((old[mv.toNat]?).map Param.name).getD "") :: specNamesAux old (i + 1) rest

def specParamNames (old : List Param) (move : List Int) : List String :=
  specNamesAux old 0 move

/-- The identity move list of length n: 0, 1, ..., n-1. -/
def identityMove (n : Nat) : List Int := (List.range n).map Int.ofNat

/-- Example def node carrying a list-literal step decorator with the two
elements a foo and a bar. -/
def dListEx : DefNode :=
  ⟨[⟨"@", "step", "(",
     [⟨"", ExprNode.lst "["
        [⟨"", ListElem.str "\"a foo\"", ""⟩, ⟨" ", ListElem.str "\"a bar\"", ""⟩] "]", ""⟩],
     ")\n"⟩],
   "def f(", "f", [], "):\n    pass\n"⟩

/-- Example file with one plain statement followed by the list-decorated
function. -/
def pfListEx : PythonFile := ⟨"steps.py", [TopNode.other "x = 1\n", TopNode.def_ dListEx]⟩

/-- Example def node with a string step decorator and parameters a, b. -/
def dStrEx : DefNode :=
  ⟨[⟨"@", "step", "(", [⟨"", ExprNode.str "\"S\"", ""⟩], ")\n"⟩],
   "def f(", "f", [⟨"", "a", ""⟩, ⟨" ", "b", ""⟩], "):\n    pass\n"⟩

def pfStrEx : PythonFile := ⟨"steps.py", [TopNode.def_ dStrEx]⟩

/-- Example file whose step decorator call has zero arguments. -/
def dZeroEx : DefNode :=
  ⟨[⟨"@", "step", "(", [], ")\n"⟩], "def f(", "f", [], "):\n    pass\n"⟩

def pfZeroEx : PythonFile := ⟨"steps.py", [TopNode.def_ dZeroEx]⟩

/-- Example file whose step decorator argument is the empty string literal. -/
def dEmptyEx : DefNode :=
  ⟨[⟨"@", "step", "(", [⟨"", ExprNode.str "\"\"", ""⟩], ")\n"⟩],
   "def f(", "f", [], "):\n    pass\n"⟩

def pfEmptyEx : PythonFile := ⟨"steps.py", [TopNode.def_ dEmptyEx]⟩

/-- Example file whose step decorator call has two arguments. -/
def dTwoEx : DefNode :=
  ⟨[⟨"@", "step", "(",
     [⟨"", ExprNode.str "\"a\"", ""⟩, ⟨" ", ExprNode.str "\"b\"", ""⟩], ")\n"⟩],
   "def f(", "f", [], "):\n    pass\n"⟩

def pfTwoEx : PythonFile := ⟨"steps.py", [TopNode.def_ dTwoEx]⟩

/-- Source text of the zero-argument decorator example. -/
def zeroArgContent : String := "@step()\ndef f():\n    pass\n"

/-- Source text used for the parse round-trip witness. -/
def roundTripContent : String := "x = 1\n@step(\"a foo\")\ndef f(a, b):\n    pass\n"

/-! # Theorems

Basic serialization lemmas. -/

theorem data_mk (cs : List Char) : (String.mk cs).data = cs := rfl

theorem catList_nil : catList [] = "" := rfl

theorem catList_cons (x : String) (xs : List String) :
    catList (x :: xs) = x ++ catList xs := rfl

theorem catList_append (xs ys : List String) :
    catList (xs ++ ys) = catList xs ++ catList ys := by
  induction xs with
  | nil => rw [List.nil_append, catList_nil, String.empty_append]
  | cons x xs ih => rw [List.cons_append, catList_cons, catList_cons, ih, String.append_assoc]

theorem interComma_cons (x : String) (xs : List String) :
    interComma (x :: xs) = x ++ catList (xs.map (fun y => "," ++ y)) := by
  induction xs generalizing x with
  | nil => simp [interComma, catList_nil, String.append_empty]
  | cons y t ih =>
    show x ++ "," ++ interComma (y :: t) = _
    rw [ih y, List.map_cons, catList_cons, String.append_assoc, String.append_assoc]

/-- interComma split at one element. -/
theorem interComma_split {α : Type} (f : α → String) (items : List α) (j : Nat) (it : α)
    (h : items[j]? = some it) :
    interComma (items.map f) =
      catList ((items.take j).map (fun x => f x ++ ",")) ++ f it
        ++ catList ((items.drop (j + 1)).map (fun x => "," ++ f x)) := by
  induction j generalizing items with
  | zero =>
    match items, h with
    | x :: rest, h =>
      simp only [List.getElem?_cons_zero, Option.some.injEq] at h
      subst h
      rw [List.map_cons, interComma_cons, List.take_zero, List.map_nil, catList_nil,
        String.empty_append, List.drop_succ_cons, List.drop_zero, List.map_map]
      rfl
  | succ j ih =>
    match items, h with
    | x :: rest, h =>
      simp only [List.getElem?_cons_succ] at h
      have hlt : j < rest.length := by
        by_contra hge
        rw [List.getElem?_eq_none (by omega)] at h
        exact Option.noConfusion h
      rw [List.take_succ_cons, List.map_cons, List.map_cons, catList_cons, List.drop_succ_cons]
      match hr : rest, hlt, h with
      | y :: t, hlt, h =>
        have step : interComma (f x :: f y :: List.map f t)
            = f x ++ "," ++ interComma (f y :: List.map f t) := rfl
        rw [List.map_cons f y t, step, ← List.map_cons f y t, ih (y :: t) h]
        simp only [String.append_assoc]

/-! Position arithmetic: a bounding box computed from the text in front of a
node addresses exactly the node's text. -/

theorem takeWhile_length_le {α : Type} (p : α → Bool) (l : List α) :
    (l.takeWhile p).length ≤ l.length := by
  induction l with
  | nil => simp
  | cons a t ih =>
    rw [List.takeWhile_cons]
    split
    · simpa using ih
    · simp

theorem lastLineLen_le (cs : List Char) : lastLineLen cs ≤ cs.length := by
  have h := takeWhile_length_le (fun c => !(c == nlChar)) cs.reverse
  rw [List.length_reverse] at h
  exact h

theorem takeWhile_append_all {α : Type} (p : α → Bool) (l1 l2 : List α)
    (h : ∀ a ∈ l1, p a = true) :
    (l1 ++ l2).takeWhile p = l1 ++ l2.takeWhile p := by
  induction l1 with
  | nil => simp
  | cons a t ih =>
    have ha : p a = true := h a (List.mem_cons_self a t)
    rw [List.cons_append, List.takeWhile_cons, ha, if_pos rfl,
      ih (fun b hb => h b (List.mem_cons_of_mem a hb)), List.cons_append]

theorem takeWhile_append_stop {α : Type} (p : α → Bool) (l1 l2 : List α) (a : α)
    (ha : a ∈ l1) (hpa : p a = false) :
    (l1 ++ l2).takeWhile p = l1.takeWhile p := by
  induction l1 with
  | nil => cases ha
  | cons b t ih =>
    rw [List.cons_append, List.takeWhile_cons, List.takeWhile_cons]
    by_cases hb : p b = true
    · rw [hb, if_pos rfl, if_pos rfl]
      have hat : a ∈ t := by
        rcases List.mem_cons.mp ha with hh | hh
        · subst hh
          rw [hpa] at hb
          cases hb
        · exact hh
      rw [ih hat]
    · rw [Bool.not_eq_true] at hb
      rw [hb]
      simp

theorem nlfree_all (cs : List Char) (h : nlChar ∉ cs) :
    ∀ a ∈ cs.reverse, (fun c => !(c == nlChar)) a = true := by
  intro a ha
  have hm : a ∈ cs := List.mem_reverse.mp ha
  simp only [Bool.not_eq_true', beq_eq_false_iff_ne]
  intro hq
  exact h (hq ▸ hm)

theorem lastLineLen_nlfree (cs : List Char) (h : nlChar ∉ cs) :
    lastLineLen cs = cs.length := by
  unfold lastLineLen
  have h2 := takeWhile_append_all (fun c => !(c == nlChar)) cs.reverse [] (nlfree_all cs h)
  rw [List.append_nil, List.takeWhile_nil, List.append_nil] at h2
  rw [h2, List.length_reverse]

theorem lastLineLen_append_nlfree (p m : List Char) (h : nlChar ∉ m) :
    lastLineLen (p ++ m) = lastLineLen p + m.length := by
  unfold lastLineLen
  rw [List.reverse_append]
  rw [takeWhile_append_all _ m.reverse p.reverse (nlfree_all m h)]
  rw [List.length_append, List.length_reverse, Nat.add_comm]

theorem lastLineLen_cons_mem (c : Char) (cs : List Char) (h : nlChar ∈ cs) :
    lastLineLen (c :: cs) = lastLineLen cs := by
  unfold lastLineLen
  rw [List.reverse_cons]
  rw [takeWhile_append_stop _ cs.reverse [c] nlChar (List.mem_reverse.mpr h) (by simp)]

theorem lastLineLen_cons_nl (p : List Char) :
    lastLineLen (nlChar :: p) = lastLineLen p := by
  by_cases h : nlChar ∈ p
  · exact lastLineLen_cons_mem nlChar p h
  · rw [lastLineLen_nlfree p h]
    unfold lastLineLen
    rw [List.reverse_cons]
    rw [takeWhile_append_all _ p.reverse [nlChar] (nlfree_all p h)]
    have h1 : List.takeWhile (fun c => !(c == nlChar)) [nlChar] = [] := by
      rw [List.takeWhile_cons]
      simp
    rw [h1, List.append_nil, List.length_reverse]

theorem skipNL_append (p rest : List Char) :
    skipNL (p ++ rest) (p.count nlChar) = p.length - lastLineLen p := by
  induction p with
  | nil => simp [skipNL, lastLineLen]
  | cons c p ih =>
    by_cases hc : c = nlChar
    · subst hc
      have hcount : (nlChar :: p).count nlChar = p.count nlChar + 1 := by
        rw [List.count_cons]
        simp
      rw [hcount, List.cons_append]
      show (if (nlChar == nlChar) = true then 1 + skipNL (p ++ rest) (p.count nlChar)
            else 1 + skipNL (p ++ rest) (p.count nlChar + 1)) = _
      rw [if_pos (by simp), ih, lastLineLen_cons_nl]
      have := lastLineLen_le p
      simp only [List.length_cons]
      omega
    · have hcount : (c :: p).count nlChar = p.count nlChar := by
        rw [List.count_cons]
        simp [hc]
      rw [hcount, List.cons_append]
      cases hcp : p.count nlChar with
      | zero =>
        have hnm : nlChar ∉ c :: p := by
          intro hmem
          rcases List.mem_cons.mp hmem with h | h
          · exact hc h.symm
          · exact (List.count_eq_zero.mp hcp) h
        rw [lastLineLen_nlfree _ hnm]
        simp [skipNL]
      | succ n =>
        show (if (c == nlChar) = true then 1 + skipNL (p ++ rest) n
              else 1 + skipNL (p ++ rest) (n + 1)) = _
        rw [if_neg (by simpa using hc), ← hcp, ih]
        have hmem : nlChar ∈ p := by
          have hz : p.count nlChar ≠ 0 := by omega
          by_contra hn
          exact hz (List.count_eq_zero.mpr hn)
        rw [lastLineLen_cons_mem c p hmem]
        have := lastLineLen_le p
        simp only [List.length_cons]
        omega

/-- Explicit value of the span of a node preceded by P with text M. -/
theorem span_bbox_eval (P M : String) :
    span_for_node (some (bboxOf P M)) =
      ⟨((1 + P.data.count nlChar : Nat) : Int), ((lastLineLen P.data : Nat) : Int),
       ((1 + (P.data ++ M.data.dropLast).count nlChar : Nat) : Int),
       ((lastLineLen (P.data ++ M.data.dropLast) + 1 : Nat) : Int)⟩ := by
  simp only [bboxOf, span_for_node, posLine]
  rw [Span.mk.injEq]
  refine ⟨rfl, ?_, rfl, ?_⟩ <;> push_cast <;> omega

/-- A span computed from the text in front of a single-line node addresses
exactly the node's text. -/
theorem spanSlice_bbox (P M S : String) (hM : M.data ≠ []) (hnl : nlChar ∉ M.data) :
    spanSlice (P ++ M ++ S) (span_for_node (some (bboxOf P M))) = M := by
  have hdl : nlChar ∉ M.data.dropLast := fun hm => hnl ((List.dropLast_sublist M.data).mem hm)
  have hcdl : M.data.dropLast.count nlChar = 0 := List.count_eq_zero.mpr hdl
  have hlen : 0 < M.data.length := List.length_pos.mpr hM
  have hdlen : M.data.dropLast.length = M.data.length - 1 := List.length_dropLast _
  have hlle := lastLineLen_le P.data
  rw [span_bbox_eval]
  unfold spanSlice offsetAt
  have hdata : (P ++ M ++ S).data = P.data ++ (M.data ++ S.data) := by
    rw [String.data_append, String.data_append, List.append_assoc]
  simp only [hdata]
  have e1 : ((((1 + P.data.count nlChar : Nat) : Int)) - 1).toNat = P.data.count nlChar := by
    push_cast
    omega
  have e2 : (((lastLineLen P.data : Nat) : Int)).toNat = lastLineLen P.data :=
    Int.toNat_ofNat _
  have e3 : ((((1 + (P.data ++ M.data.dropLast).count nlChar : Nat) : Int)) - 1).toNat
      = P.data.count nlChar := by
    rw [List.count_append, hcdl]
    push_cast
    omega
  have e4 : (((lastLineLen (P.data ++ M.data.dropLast) + 1 : Nat) : Int)).toNat
      = lastLineLen P.data + M.data.length := by
    rw [lastLineLen_append_nlfree _ _ hdl, Int.toNat_ofNat]
    omega
  rw [e1, e2, e3, e4, skipNL_append]
  have ho1 : P.data.length - lastLineLen P.data + lastLineLen P.data = P.data.length := by
    omega
  have ho2 : P.data.length - lastLineLen P.data + (lastLineLen P.data + M.data.length)
      = P.data.length + M.data.length := by
    omega
  rw [ho1, ho2]
  have hsub : P.data.length + M.data.length - P.data.length = M.data.length := by omega
  rw [hsub, List.drop_left, List.take_left]

/-! Characterization of the scanner and of the step locator. -/

theorem stepCandidatesAux_mem (nodes : List TopNode) (k i : Nat) (d : DefNode)
    (dec : Decorator) (h : (i, d, dec) ∈ stepCandidatesAux k nodes) :
    k ≤ i ∧ nodes[i - k]? = some (TopNode.def_ d) ∧
      d.decorators.find? (fun x => x.name == "step") = some dec := by
  induction nodes generalizing k with
  | nil => cases h
  | cons n rest ih =>
    match n with
    | TopNode.def_ dn =>
      unfold stepCandidatesAux at h
      cases hf : dn.decorators.find? (fun x => x.name == "step") with
      | some dec0 =>
        rw [hf] at h
        rcases List.mem_append.mp h with hl | hr
        · rcases List.mem_singleton.mp hl with heq
          obtain ⟨rfl, rfl, rfl⟩ : i = k ∧ d = dn ∧ dec = dec0 := by
            injection heq with h1 h2
            injection h2 with h2 h3
            exact ⟨h1, h2, h3⟩
          refine ⟨Nat.le_refl _, ?_, hf⟩
          simp
        · obtain ⟨hk, hget, hfind⟩ := ih (k + 1) hr
          refine ⟨by omega, ?_, hfind⟩
          have : i - k = (i - (k + 1)) + 1 := by omega
          rw [this, List.getElem?_cons_succ]
          exact hget
      | none =>
        rw [hf] at h
        rw [List.nil_append] at h
        obtain ⟨hk, hget, hfind⟩ := ih (k + 1) h
        refine ⟨by omega, ?_, hfind⟩
        have : i - k = (i - (k + 1)) + 1 := by omega
        rw [this, List.getElem?_cons_succ]
        exact hget
    | TopNode.other t =>
      unfold stepCandidatesAux at h
      obtain ⟨hk, hget, hfind⟩ := ih (k + 1) h
      refine ⟨by omega, ?_, hfind⟩
      have : i - k = (i - (k + 1)) + 1 := by omega
      rw [this, List.getElem?_cons_succ]
      exact hget

theorem stepCandidates_mem (nodes : List TopNode) (i : Nat) (d : DefNode)
    (dec : Decorator) (h : (i, d, dec) ∈ stepCandidates nodes) :
    nodes[i]? = some (TopNode.def_ d) ∧
      d.decorators.find? (fun x => x.name == "step") = some dec := by
  obtain ⟨_, hget, hfind⟩ := stepCandidatesAux_mem nodes 0 i d dec h
  rw [Nat.sub_zero] at hget
  exact ⟨hget, hfind⟩

theorem stepCandidatesAux_complete (nodes : List TopNode) (k i : Nat) (d : DefNode)
    (dec : Decorator) (h1 : nodes[i]? = some (TopNode.def_ d))
    (h2 : d.decorators.find? (fun x => x.name == "step") = some dec) :
    (k + i, d, dec) ∈ stepCandidatesAux k nodes := by
  induction nodes generalizing k i with
  | nil => rw [List.getElem?_nil] at h1; exact Option.noConfusion h1
  | cons n rest ih =>
    cases i with
    | zero =>
      rw [List.getElem?_cons_zero] at h1
      injection h1 with h1
      subst h1
      unfold stepCandidatesAux
      rw [h2]
      exact List.mem_append.mpr (Or.inl (by simp))
    | succ j =>
      rw [List.getElem?_cons_succ] at h1
      have hmem := ih (k + 1) j h1
      have harith : k + (j + 1) = (k + 1) + j := by omega
      rw [harith]
      match n with
      | TopNode.def_ dn =>
        unfold stepCandidatesAux
        cases hf : dn.decorators.find? (fun x => x.name == "step") with
        | some dec0 => exact List.mem_append.mpr (Or.inr hmem)
        | none => rw [List.nil_append]; exact hmem
      | TopNode.other t =>
        unfold stepCandidatesAux
        exact hmem

theorem stepCandidates_complete (nodes : List TopNode) (i : Nat) (d : DefNode)
    (dec : Decorator) (h1 : nodes[i]? = some (TopNode.def_ d))
    (h2 : d.decorators.find? (fun x => x.name == "step") = some dec) :
    (i, d, dec) ∈ stepCandidates nodes := by
  have := stepCandidatesAux_complete nodes 0 i d dec h1 h2
  rwa [Nat.zero_add] at this

/-- Equation lemma for findStepAux on a cons cell. -/
theorem findStepAux_cons (fp old : String) (i : Nat) (d : DefNode) (dec : Decorator)
    (rest : List (Nat × DefNode × Decorator)) :
    findStepAux fp old ((i, d, dec) :: rest) =
      (match dec.args with
       | [] => Except.error "IndexError: list index out of range"
       | _ :: _ =>
         if (step_decorator_args fp dec).1 = some (.str old) then
           Except.ok (some ⟨i, none⟩)
         else
           match (step_decorator_args fp dec).1 with
           | some (.list xs) =>
             if PyElem.str old ∈ xs then
               Except.ok (some ⟨i, some (pyIndex (.str old) xs)⟩)
             else findStepAux fp old rest
           | _ => findStepAux fp old rest) := rfl

theorem pyIndex_lt (a : PyElem) (xs : List PyElem) (h : a ∈ xs) :
    pyIndex a xs < xs.length := by
  induction xs with
  | nil => cases h
  | cons b t ih =>
    unfold pyIndex
    by_cases hab : a = b
    · rw [if_pos hab]
      simp
    · rw [if_neg hab]
      have : a ∈ t := by
        rcases List.mem_cons.mp h with hh | hh
        · exact absurd hh hab
        · exact hh
      have := ih this
      simp only [List.length_cons]
      omega

theorem getElem?_pyIndex (a : PyElem) (xs : List PyElem) (h : a ∈ xs) :
    xs[pyIndex a xs]? = some a := by
  induction xs with
  | nil => cases h
  | cons b t ih =>
    unfold pyIndex
    by_cases hab : a = b
    · rw [if_pos hab, hab]
      simp
    · rw [if_neg hab]
      have hmem : a ∈ t := by
        rcases List.mem_cons.mp h with hh | hh
        · exact absurd hh hab
        · exact hh
      have harith : 1 + pyIndex a t = pyIndex a t + 1 := by omega
      rw [harith, List.getElem?_cons_succ]
      exact ih hmem

/-- Soundness of the step locator: a successful location points to a scanned
candidate, whose resolution matched the old text either as a whole string or
as an element of a list. -/
theorem findStepAux_sound (fp old : String) (cands : List (Nat × DefNode × Decorator))
    (loc : StepLoc) (h : findStepAux fp old cands = .ok (some loc)) :
    ∃ d dec, (loc.nodeIdx, d, dec) ∈ cands ∧ dec.args ≠ [] ∧
      ((loc.elemIdx = none ∧ (step_decorator_args fp dec).1 = some (.str old)) ∨
       (∃ xs, (step_decorator_args fp dec).1 = some (.list xs) ∧ PyElem.str old ∈ xs ∧
          loc.elemIdx = some (pyIndex (.str old) xs))) := by
  induction cands with
  | nil =>
    unfold findStepAux at h
    exact Option.noConfusion (Except.ok.injEq _ _ |>.mp h)
  | cons c rest ih =>
    obtain ⟨i, d, dec⟩ := c
    rw [findStepAux_cons] at h
    split at h
    · exact Except.noConfusion h
    · next a r hargs =>
      split at h
      · next hs =>
        injection h with h
        injection h with h
        subst h
        refine ⟨d, dec, List.mem_cons_self _ _, ?_, Or.inl ⟨rfl, hs⟩⟩
        rw [hargs]
        exact List.cons_ne_nil a r
      · next hs =>
        split at h
        · next xs hv =>
          split at h
          · next hm =>
            injection h with h
            injection h with h
            subst h
            refine ⟨d, dec, List.mem_cons_self _ _, ?_, Or.inr ⟨xs, hv, hm, rfl⟩⟩
            rw [hargs]
            exact List.cons_ne_nil a r
          · next hm =>
            obtain ⟨d1, dec1, hmem, hne, hcase⟩ := ih h
            exact ⟨d1, dec1, List.mem_cons_of_mem _ hmem, hne, hcase⟩
        · next hv =>
          obtain ⟨d1, dec1, hmem, hne, hcase⟩ := ih h
          exact ⟨d1, dec1, List.mem_cons_of_mem _ hmem, hne, hcase⟩

/-! Decomposition of the serialized file around located nodes. -/

theorem getElem?_lt {α : Type} {l : List α} {i : Nat} {a : α} (h : l[i]? = some a) :
    i < l.length := by
  by_contra hge
  rw [List.getElem?_eq_none (by omega)] at h
  exact Option.noConfusion h

theorem get_code_split (pf : PythonFile) (i : Nat) (n : TopNode)
    (h : pf.py_tree[i]? = some n) :
    get_code pf = catList ((pf.py_tree.take i).map topDumps) ++ topDumps n
      ++ catList ((pf.py_tree.drop (i + 1)).map topDumps) := by
  have hlt : i < pf.py_tree.length := getElem?_lt h
  have hget : pf.py_tree[i] = n := by
    rw [List.getElem?_eq_getElem hlt] at h
    injection h
  have hsplit : pf.py_tree = pf.py_tree.take i ++ n :: pf.py_tree.drop (i + 1) := by
    conv_lhs => rw [← List.take_append_drop i pf.py_tree]
    rw [List.drop_eq_getElem_cons hlt, hget]
  conv_lhs => rw [get_code, hsplit]
  rw [List.map_append, catList_append, List.map_cons, catList_cons, String.append_assoc]

theorem dropWhile_append_all {α : Type} (p : α → Bool) (l1 l2 : List α)
    (h : ∀ a ∈ l1, p a = true) :
    (l1 ++ l2).dropWhile p = l2.dropWhile p := by
  induction l1 with
  | nil => simp
  | cons a t ih =>
    rw [List.cons_append, List.dropWhile_cons, if_pos (h a (List.mem_cons_self a t))]
    exact ih (fun b hb => h b (List.mem_cons_of_mem a hb))

theorem dropWhile_head_false {α : Type} (p : α → Bool) (l l2 : List α) (a : α)
    (h : l.dropWhile p = a :: l2) : p a = false := by
  induction l with
  | nil => exact List.noConfusion h
  | cons b t ih =>
    rw [List.dropWhile_cons] at h
    split at h
    · exact ih h
    · next hb =>
      injection h with h1 h2
      subst h1
      exact Bool.not_eq_true _ ▸ (by simpa using hb)

theorem take_set {α : Type} (l : List α) (i : Nat) (x : α) :
    (l.set i x).take i = l.take i := by
  induction l generalizing i with
  | nil => simp
  | cons b t ih =>
    cases i with
    | zero => simp
    | succ j =>
      rw [List.set_cons_succ, List.take_succ_cons, List.take_succ_cons, ih]

theorem elemDumps_replElem (e : ListElem) (newRaw : String) :
    elemDumps (replElem e newRaw) = newRaw := by
  cases e <;> rfl

/-- The located step literal's text decomposes the serialized file. -/
theorem locParts_split (pf : PythonFile) (loc : StepLoc) (P M S : String)
    (h : locParts pf loc = some (P, M, S)) :
    get_code pf = P ++ M ++ S := by
  unfold locParts at h
  split at h
  case _ d heq =>
    split at h
    · exact Option.noConfusion h
    case _ dec postDecs heq2 =>
      split at h
      · exact Option.noConfusion h
      case _ a restArgs heq3 =>
        have hdecs : pf.py_tree[loc.nodeIdx]? = some (TopNode.def_ d) := heq
        have hsplitdec : d.decorators
            = d.decorators.takeWhile notStepDec ++ dec :: postDecs := by
          conv_lhs => rw [← List.takeWhile_append_dropWhile (p := notStepDec) (l := d.decorators)]
          rw [heq2]
        have hbase : get_code pf
            = catList ((pf.py_tree.take loc.nodeIdx).map topDumps)
              ++ (catList ((d.decorators.takeWhile notStepDec).map decDumps)
                  ++ (decDumps dec
                  ++ (catList (postDecs.map decDumps)
                  ++ (d.header ++ (paramsDumps d.params ++ d.footer)))))
              ++ catList ((pf.py_tree.drop (loc.nodeIdx + 1)).map topDumps) := by
          rw [get_code_split pf loc.nodeIdx _ hdecs]
          congr 1
          congr 1
          show defDumps d = _
          rw [defDumps]
          conv_lhs => rw [hsplitdec]
          rw [List.map_append, catList_append, List.map_cons, catList_cons]
          simp only [String.append_assoc]
        have hdecdump : decDumps dec
            = dec.pre ++ (dec.name ++ (dec.callOpen
              ++ ((argDumps a ++ catList ((restArgs.map argDumps).map (fun s => "," ++ s)))
              ++ dec.callClose))) := by
          rw [decDumps, heq3, List.map_cons, interComma_cons]
          simp only [String.append_assoc]
        split at h
        · next raw hval =>
          injection h with h
          injection h with hP h
          injection h with hM hS
          subst hP
          subst hM
          subst hS
          rw [hbase, hdecdump]
          rw [argDumps, hval]
          show _ = _
          simp only [String.append_assoc, exprDumps]
        · next raw ev hval =>
          injection h with h
          injection h with hP h
          injection h with hM hS
          subst hP
          subst hM
          subst hS
          rw [hbase, hdecdump]
          rw [argDumps, hval]
          simp only [String.append_assoc, exprDumps]
        · exact Option.noConfusion h
        · next j openB items closeB helem hval =>
          split at h
          · next it hit =>
            injection h with h
            injection h with hP h
            injection h with hM hS
            subst hP
            subst hM
            subst hS
            rw [hbase, hdecdump]
            rw [argDumps, hval]
            have hexpr : exprDumps (ExprNode.lst openB items closeB)
                = openB ++ interComma (items.map itemDumps) ++ closeB := rfl
            rw [hexpr, interComma_split itemDumps items j it hit, itemDumps]
            simp only [String.append_assoc]
          · exact Option.noConfusion h
        · exact Option.noConfusion h
  · exact Option.noConfusion h

/-! Evaluation of the in-place mutation. -/

theorem updateDef_eval (pf : PythonFile) (i : Nat) (d : DefNode)
    (f : DefNode → Option DefNode) (h : pf.py_tree[i]? = some (TopNode.def_ d)) :
    updateDef pf i f
      = (f d).map fun d1 => ⟨pf.file_path, pf.py_tree.set i (TopNode.def_ d1)⟩ := by
  unfold updateDef
  rw [h]

theorem modifyStepDec_eq (pre post : List Decorator) (dec : Decorator)
    (f : Decorator → Option Decorator)
    (hpre : ∀ x ∈ pre, notStepDec x = true) (hdec : notStepDec dec = false) :
    modifyStepDec f (pre ++ dec :: post) = (f dec).map (fun dec1 => pre ++ dec1 :: post) := by
  induction pre with
  | nil =>
    rw [List.nil_append]
    unfold modifyStepDec
    have hd : (dec.name == "step") = true := by
      have := hdec
      unfold notStepDec at this
      simpa using this
    rw [if_pos hd]
    cases f dec <;> rfl
  | cons b t ih =>
    rw [List.cons_append]
    unfold modifyStepDec
    have hb : ¬(b.name == "step") = true := by
      have := hpre b (List.mem_cons_self b t)
      unfold notStepDec at this
      simpa using this
    rw [if_neg hb, ih (fun x hx => hpre x (List.mem_cons_of_mem b hx))]
    cases f dec <;> rfl

theorem mem_takeWhile_true {α : Type} (p : α → Bool) (l : List α) :
    ∀ x ∈ l.takeWhile p, p x = true := by
  induction l with
  | nil => intro x hx; cases hx
  | cons b t ih =>
    intro x hx
    rw [List.takeWhile_cons] at hx
    split at hx
    · rcases List.mem_cons.mp hx with hh | hh
      · subst hh; assumption
      · exact ih x hh
    · cases hx

theorem mutateStepRaw_eval (pf : PythonFile) (loc : StepLoc) (newRaw : String)
    (d : DefNode) (dec : Decorator) (postDecs : List Decorator) (a : CallArg)
    (restArgs : List CallArg) (e1 : ExprNode)
    (heq : pf.py_tree[loc.nodeIdx]? = some (TopNode.def_ d))
    (heq2 : d.decorators.dropWhile notStepDec = dec :: postDecs)
    (heq3 : dec.args = a :: restArgs)
    (hrepl : replaceExprRaw a.value loc.elemIdx newRaw = some e1) :
    mutateStepRaw pf loc newRaw
      = some ⟨pf.file_path, pf.py_tree.set loc.nodeIdx (TopNode.def_
          { d with decorators := d.decorators.takeWhile notStepDec
              ++ { dec with args := ⟨a.pre, e1, a.post⟩ :: restArgs } :: postDecs })⟩ := by
  unfold mutateStepRaw
  rw [updateDef_eval pf _ d _ heq]
  have hsplitdec : d.decorators
      = d.decorators.takeWhile notStepDec ++ dec :: postDecs := by
    conv_lhs => rw [← List.takeWhile_append_dropWhile (p := notStepDec) (l := d.decorators)]
    rw [heq2]
  have hpre := mem_takeWhile_true notStepDec d.decorators
  have hdec : notStepDec dec = false :=
    dropWhile_head_false notStepDec d.decorators postDecs dec heq2
  conv_lhs =>
    rw [show (modifyStepDec
        (fun dec => match dec.args with
          | a :: rest =>
            (replaceExprRaw a.value loc.elemIdx newRaw).map fun e1 =>
              { dec with args := ⟨a.pre, e1, a.post⟩ :: rest }
          | [] => none)
        d.decorators) = _ from congrArg _ hsplitdec]
  rw [modifyStepDec_eq _ _ _ _ hpre hdec, heq3]
  show Option.map _ (Option.map _ (Option.map _ (Option.map _
    (replaceExprRaw a.value loc.elemIdx newRaw)))) = _
  rw [hrepl]
  rfl

/-- Frame property of the step-literal mutation: only the located literal's
text changes in the serialized file, and the def node keeps its parameters,
header, footer and name. -/
theorem mutateStepRaw_frame (pf : PythonFile) (loc : StepLoc) (P M S newRaw : String)
    (h : locParts pf loc = some (P, M, S)) :
    ∃ d d1, defAt pf loc.nodeIdx = some d ∧
      mutateStepRaw pf loc newRaw
        = some ⟨pf.file_path, pf.py_tree.set loc.nodeIdx (TopNode.def_ d1)⟩ ∧
      defAt ⟨pf.file_path, pf.py_tree.set loc.nodeIdx (TopNode.def_ d1)⟩ loc.nodeIdx
        = some d1 ∧
      get_code ⟨pf.file_path, pf.py_tree.set loc.nodeIdx (TopNode.def_ d1)⟩
        = P ++ newRaw ++ S ∧
      d1.params = d.params ∧ d1.header = d.header ∧ d1.footer = d.footer
        ∧ d1.name = d.name := by
  unfold locParts at h
  split at h
  case _ d heq =>
    split at h
    · exact Option.noConfusion h
    case _ dec postDecs heq2 =>
      split at h
      · exact Option.noConfusion h
      case _ a restArgs heq3 =>
        have hlt : loc.nodeIdx < pf.py_tree.length := getElem?_lt heq
        have hdefAt : defAt pf loc.nodeIdx = some d := by
          unfold defAt
          rw [heq]
        have hgets : ∀ d1 : DefNode,
            (pf.py_tree.set loc.nodeIdx (TopNode.def_ d1))[loc.nodeIdx]?
              = some (TopNode.def_ d1) :=
          fun d1 => List.getElem?_set_self hlt
        have htake : ∀ d1 : DefNode,
            (pf.py_tree.set loc.nodeIdx (TopNode.def_ d1)).take loc.nodeIdx
              = pf.py_tree.take loc.nodeIdx := fun d1 => take_set _ _ _
        have hdrop : ∀ d1 : DefNode,
            (pf.py_tree.set loc.nodeIdx (TopNode.def_ d1)).drop (loc.nodeIdx + 1)
              = pf.py_tree.drop (loc.nodeIdx + 1) := by
          intro d1
          rw [List.drop_set, if_pos (by omega)]
        split at h
        · next raw helem hval =>
          injection h with h
          injection h with hP h
          injection h with hM hS
          subst hP
          subst hM
          subst hS
          have hrepl : replaceExprRaw a.value loc.elemIdx newRaw
              = some (ExprNode.str newRaw) := by
            rw [hval, helem]
            rfl
          refine ⟨d, _, hdefAt,
            mutateStepRaw_eval pf loc newRaw d dec postDecs a restArgs _ heq heq2 heq3 hrepl,
            ?_, ?_, rfl, rfl, rfl, rfl⟩
          · unfold defAt
            rw [hgets]
          · rw [get_code_split _ loc.nodeIdx _ (hgets _), htake, hdrop]
            simp only [topDumps, defDumps, decDumps, argDumps, exprDumps, List.map_append,
              List.map_cons, catList_append, catList_cons, interComma_cons,
              String.append_assoc]
        · next raw ev helem hval =>
          injection h with h
          injection h with hP h
          injection h with hM hS
          subst hP
          subst hM
          subst hS
          have hrepl : replaceExprRaw a.value loc.elemIdx newRaw
              = some (ExprNode.other newRaw ev) := by
            rw [hval, helem]
            rfl
          refine ⟨d, _, hdefAt,
            mutateStepRaw_eval pf loc newRaw d dec postDecs a restArgs _ heq heq2 heq3 hrepl,
            ?_, ?_, rfl, rfl, rfl, rfl⟩
          · unfold defAt
            rw [hgets]
          · rw [get_code_split _ loc.nodeIdx _ (hgets _), htake, hdrop]
            simp only [topDumps, defDumps, decDumps, argDumps, exprDumps, List.map_append,
              List.map_cons, catList_append, catList_cons, interComma_cons,
              String.append_assoc]
        · exact Option.noConfusion h
        · next j openB items closeB helem hval =>
          split at h
          · next it hit =>
            injection h with h
            injection h with hP h
            injection h with hM hS
            subst hP
            subst hM
            subst hS
            have hjlt : j < items.length := getElem?_lt hit
            have hrepl : replaceExprRaw a.value loc.elemIdx newRaw
                = some (ExprNode.lst openB
                    (items.set j ⟨it.pre, replElem it.elem newRaw, it.post⟩) closeB) := by
              rw [hval, helem]
              simp only [replaceExprRaw]
              rw [hit]
            have hset : (items.set j ⟨it.pre, replElem it.elem newRaw, it.post⟩)[j]?
                = some ⟨it.pre, replElem it.elem newRaw, it.post⟩ :=
              List.getElem?_set_self hjlt
            refine ⟨d, _, hdefAt,
              mutateStepRaw_eval pf loc newRaw d dec postDecs a restArgs _ heq heq2 heq3 hrepl,
              ?_, ?_, rfl, rfl, rfl, rfl⟩
            · unfold defAt
              rw [hgets]
            · rw [get_code_split _ loc.nodeIdx _ (hgets _), htake, hdrop]
              simp only [topDumps, defDumps, decDumps, argDumps, exprDumps, List.map_append,
                List.map_cons, catList_append, catList_cons, interComma_cons]
              rw [interComma_split itemDumps _ j _ hset, take_set, List.drop_set,
                if_pos (by omega)]
              simp only [itemDumps, elemDumps_replElem, String.append_assoc]
          · exact Option.noConfusion h
        · exact Option.noConfusion h
  · exact Option.noConfusion h

/-! Evaluation of refactor_step. -/

theorem defAt_some_getElem (pf : PythonFile) (i : Nat) (d : DefNode)
    (h : defAt pf i = some d) : pf.py_tree[i]? = some (TopNode.def_ d) := by
  unfold defAt at h
  split at h
  case _ d0 heq =>
    injection h with h
    subst h
    exact heq
  · exact Option.noConfusion h

theorem stepBox_eval (pf : PythonFile) (loc : StepLoc) (P M S : String)
    (h : locParts pf loc = some (P, M, S)) : stepBox pf loc = some (bboxOf P M) := by
  unfold stepBox
  rw [h]
  rfl

theorem identityMove_length (n : Nat) : (identityMove n).length = n := by
  unfold identityMove
  rw [List.length_map, List.length_range]

theorem idCheckAux_range' (n k : Nat) :
    idCheckAux k ((List.range' k n).map Int.ofNat) = true := by
  induction n generalizing k with
  | zero => rfl
  | succ m ih =>
    rw [List.range'_succ, List.map_cons]
    unfold idCheckAux
    rw [show ((k : Int) == Int.ofNat k) = true from beq_self_eq_true (Int.ofNat k),
      Bool.true_and]
    exact ih (k + 1)

theorem idCheck_identityMove (n : Nat) : idCheckAux 0 (identityMove n) = true := by
  unfold identityMove
  rw [List.range_eq_range']
  exact idCheckAux_range' n 0

theorem joinCommaSpace_cons (x : String) (xs : List String) :
    joinCommaSpace (x :: xs) = x ++ catList (xs.map (fun y => ", " ++ y)) := by
  induction xs generalizing x with
  | nil => simp [joinCommaSpace, catList_nil, String.append_empty]
  | cons y t ih =>
    show x ++ ", " ++ joinCommaSpace (y :: t) = _
    rw [ih y, List.map_cons, catList_cons, String.append_assoc, String.append_assoc]

theorem paramsDumps_mkParams (names : List String) :
    paramsDumps (mkParams names) = joinCommaSpace names := by
  cases names with
  | nil => rfl
  | cons n rest =>
    unfold mkParams paramsDumps
    rw [List.map_cons, interComma_cons, joinCommaSpace_cons, List.map_map]
    have hhead : paramDumps ⟨"", n, ""⟩ = n := by
      unfold paramDumps
      rw [String.empty_append, String.append_empty]
    rw [hhead]
    congr 1
    rw [List.map_map]
    congr 1
    apply List.map_congr_left
    intro m _
    show "," ++ paramDumps ⟨" ", m, ""⟩ = ", " ++ m
    unfold paramDumps
    rw [String.append_empty, ← String.append_assoc]
    rfl

/-- Evaluation of refactor_step when the move list is the identity on the
matched function's parameters: a single step-text edit, and the tree text
changes only inside the step literal. -/
theorem refactor_step_identity (pf : PythonFile) (old new : String) (loc : StepLoc)
    (P M S : String) (d : DefNode)
    (hf : find_step_node pf old = .ok (some loc))
    (hp : locParts pf loc = some (P, M, S))
    (hd : defAt pf loc.nodeIdx = some d) :
    ∃ d1 : DefNode,
      refactor_step pf old new (identityMove d.params.length)
        = .ok ([(span_for_node (some (bboxOf P M)), pyReplace M old new)],
            ⟨pf.file_path, pf.py_tree.set loc.nodeIdx (TopNode.def_ d1)⟩)
      ∧ get_code ⟨pf.file_path, pf.py_tree.set loc.nodeIdx (TopNode.def_ d1)⟩
          = P ++ pyReplace M old new ++ S
      ∧ d1.params = d.params ∧ d1.header = d.header ∧ d1.footer = d.footer
      ∧ d1.name = d.name := by
  obtain ⟨d0, d1, hd0, hmut, hd1, hcode, hparams, hheader, hfooter, hname⟩ :=
    mutateStepRaw_frame pf loc P M S (pyReplace M old new) hp
  have hdd : d0 = d := by
    rw [hd0] at hd
    injection hd
  subst hdd
  refine ⟨d1, ?_, hcode, hparams, hheader, hfooter, hname⟩
  simp only [refactor_step, hf, hp, stepBox, Option.map_some', hmut, hd1, hparams,
    identityMove_length, beq_self_eq_true, idCheck_identityMove, Bool.and_self, if_true]

/-- Evaluation of refactor_step when the move list is not the identity and all
its non-negative entries are in range: a step-text edit followed by a
parameter-list edit whose text joins the new names with comma-space, the new
parameter list being the bare re-parsed names. -/
theorem refactor_step_remap (pf : PythonFile) (old new : String) (loc : StepLoc)
    (P M S : String) (d : DefNode) (move : List Int) (names : List String)
    (hf : find_step_node pf old = .ok (some loc))
    (hp : locParts pf loc = some (P, M, S))
    (hd : defAt pf loc.nodeIdx = some d)
    (hid : (d.params.length == move.length && idCheckAux 0 move) = false)
    (hnames : buildNamesAux d.params 0 move = .ok names) :
    ∃ (d1 : DefNode) (sp2 : Span) (pf2 : PythonFile),
      refactor_step pf old new move
        = .ok ([(span_for_node (some (bboxOf P M)), pyReplace M old new),
                (sp2, paramsDumps (mkParams names))], pf2)
      ∧ d1.params = d.params
      ∧ pf2 = ⟨pf.file_path, (pf.py_tree.set loc.nodeIdx (TopNode.def_ d1)).set loc.nodeIdx
            (TopNode.def_ { d1 with params := mkParams names })⟩
      ∧ defAt pf2 loc.nodeIdx = some { d1 with params := mkParams names } := by
  obtain ⟨d0, d1, hd0, hmut, hd1, hcode, hparams, hheader, hfooter, hname⟩ :=
    mutateStepRaw_frame pf loc P M S (pyReplace M old new) hp
  have hdd : d0 = d := by
    rw [hd0] at hd
    injection hd
  subst hdd
  have hlt1 : loc.nodeIdx < (pf.py_tree.set loc.nodeIdx (TopNode.def_ d1)).length := by
    rw [List.length_set]
    exact getElem?_lt (defAt_some_getElem pf loc.nodeIdx d0 hd0)
  have hset : setParams ⟨pf.file_path, pf.py_tree.set loc.nodeIdx (TopNode.def_ d1)⟩
      loc.nodeIdx (mkParams names)
      = some ⟨pf.file_path, (pf.py_tree.set loc.nodeIdx (TopNode.def_ d1)).set loc.nodeIdx
          (TopNode.def_ { d1 with params := mkParams names })⟩ := by
    unfold setParams
    rw [updateDef_eval _ _ d1 _ (defAt_some_getElem _ _ _ hd1)]
    rfl
  refine ⟨d1, span_for_node (paramsBox
      ⟨pf.file_path, pf.py_tree.set loc.nodeIdx (TopNode.def_ d1)⟩ loc.nodeIdx), _,
    ?_, hparams, rfl, ?_⟩
  · simp only [refactor_step, hf, hp, stepBox, Option.map_some', hmut, hd1, hparams, hid,
      Bool.false_eq_true, if_false, hnames, hset]
    rfl
  · unfold defAt
    rw [List.getElem?_set_self hlt1]

/-! Round trip of the fragment parser: every piece of accepted text is stored
in some node, so serializing the parse result restores the input. -/

theorem takeLine_append (cs : List Char) : (takeLine cs).1 ++ (takeLine cs).2 = cs := by
  induction cs with
  | nil => rfl
  | cons c t ih =>
    unfold takeLine
    by_cases hc : (c == nlChar) = true
    · rw [if_pos hc]
      rfl
    · rw [if_neg hc]
      show c :: ((takeLine t).1 ++ (takeLine t).2) = c :: t
      rw [ih]

theorem splitLinesF_join (fuel : Nat) (cs : List Char) :
    (splitLinesF fuel cs).flatten = cs := by
  induction fuel generalizing cs with
  | zero =>
    cases cs with
    | nil => rfl
    | cons c t => simp [splitLinesF]
  | succ f ih =>
    cases cs with
    | nil => rfl
    | cons c t =>
      show ((takeLine (c :: t)).1 :: splitLinesF f (takeLine (c :: t)).2).flatten = c :: t
      rw [List.flatten_cons, ih, takeLine_append]

theorem joinComma_consHead (c : Char) (l : List (List Char)) :
    joinComma (consHead c l) = c :: joinComma l := by
  cases l with
  | nil => rfl
  | cons s rest =>
    cases rest with
    | nil => rfl
    | cons t r => rfl

theorem consHead_ne_nil (c : Char) (l : List (List Char)) : consHead c l ≠ [] := by
  cases l <;> simp [consHead]

theorem splitTop_ne_nil (d : Nat) (q : Option Char) (cs : List Char) :
    splitTop d q cs ≠ [] := by
  cases cs with
  | nil => simp [splitTop]
  | cons c t =>
    unfold splitTop
    cases q with
    | some qc => exact consHead_ne_nil _ _
    | none =>
      by_cases h : (c == ',' && d == 0) = true
      · rw [if_pos h]
        simp
      · rw [if_neg h]
        by_cases h2 : (c == dqChar || c == sqChar) = true
        · rw [if_pos h2]
          exact consHead_ne_nil _ _
        · rw [if_neg h2]
          by_cases h3 : (c == '[' || c == '(') = true
          · rw [if_pos h3]
            exact consHead_ne_nil _ _
          · rw [if_neg h3]
            by_cases h4 : (c == ']' || c == ')') = true
            · rw [if_pos h4]
              exact consHead_ne_nil _ _
            · rw [if_neg h4]
              exact consHead_ne_nil _ _

theorem splitTop_join (cs : List Char) : ∀ (d : Nat) (q : Option Char),
    joinComma (splitTop d q cs) = cs := by
  induction cs with
  | nil => intro d q; rfl
  | cons c t ih =>
    intro d q
    unfold splitTop
    cases q with
    | some qc =>
      rw [joinComma_consHead, ih]
    | none =>
      by_cases h1 : (c == ',' && d == 0) = true
      · rw [if_pos h1]
        have hc : c = ',' := by
          have := (Bool.and_eq_true _ _).mp h1
          exact eq_of_beq this.1
        subst hc
        have hne : splitTop 0 none t ≠ [] := splitTop_ne_nil 0 none t
        cases hs : splitTop 0 none t with
        | nil => exact absurd hs hne
        | cons s rest =>
          show joinComma ([] :: s :: rest) = ',' :: t
          show [] ++ ',' :: joinComma (s :: rest) = ',' :: t
          rw [List.nil_append, ← hs, ih]
      · rw [if_neg h1]
        by_cases h2 : (c == dqChar || c == sqChar) = true
        · rw [if_pos h2, joinComma_consHead, ih]
        · rw [if_neg h2]
          by_cases h3 : (c == '[' || c == '(') = true
          · rw [if_pos h3, joinComma_consHead, ih]
          · rw [if_neg h3]
            by_cases h4 : (c == ']' || c == ')') = true
            · rw [if_pos h4, joinComma_consHead, ih]
            · rw [if_neg h4, joinComma_consHead, ih]

theorem breakAt_append (c : Char) (l : List Char) (a b : List Char)
    (h : breakAt c l = some (a, b)) : a ++ c :: b = l := by
  induction l generalizing a b with
  | nil => exact Option.noConfusion h
  | cons x xs ih =>
    unfold breakAt at h
    by_cases hx : (x == c) = true
    · rw [if_pos hx] at h
      injection h with h
      injection h with h1 h2
      subst h1
      subst h2
      rw [List.nil_append, eq_of_beq hx]
    · rw [if_neg hx] at h
      cases hb : breakAt c xs with
      | none => rw [hb] at h; exact Option.noConfusion h
      | some p =>
        obtain ⟨p1, p2⟩ := p
        rw [hb] at h
        injection h with h
        injection h with h1 h2
        subst h1
        subst h2
        show x :: (p1 ++ c :: p2) = x :: xs
        rw [ih p1 p2 hb]

theorem breakAtLast_append (c : Char) (l : List Char) (m r : List Char)
    (h : breakAtLast c l = some (m, r)) : m ++ c :: r = l := by
  unfold breakAtLast at h
  cases hb : breakAt c l.reverse with
  | none => rw [hb] at h; exact Option.noConfusion h
  | some p =>
    rw [hb] at h
    injection h with h
    obtain ⟨p1, p2⟩ := p
    injection h with h1 h2
    subst h1
    subst h2
    have := breakAt_append c l.reverse p1 p2 hb
    have h2 := congrArg List.reverse this
    rw [List.reverse_reverse, List.reverse_append, List.reverse_cons] at h2
    rw [← h2, List.append_assoc]
    rfl

theorem trimParts_append (seg : List Char) :
    (trimParts seg).1 ++ ((trimParts seg).2.1 ++ (trimParts seg).2.2) = seg := by
  unfold trimParts
  have h2 : (((seg.dropWhile isSpaceChar).reverse.dropWhile isSpaceChar).reverse
      ++ ((seg.dropWhile isSpaceChar).reverse.takeWhile isSpaceChar).reverse)
      = seg.dropWhile isSpaceChar := by
    rw [← List.reverse_append, List.takeWhile_append_dropWhile, List.reverse_reverse]
  rw [h2, List.takeWhile_append_dropWhile]

theorem interComma_data_join (segs : List (List Char)) (f : List Char → String)
    (hf : ∀ seg ∈ segs, (f seg).data = seg) :
    (interComma (segs.map f)).data = joinComma segs := by
  induction segs with
  | nil => rfl
  | cons s rest ih =>
    cases rest with
    | nil =>
      show (f s).data = joinComma [s]
      rw [hf s (by simp)]
      rfl
    | cons t r =>
      show (f s ++ "," ++ interComma (List.map f (t :: r))).data = s ++ ',' :: joinComma (t :: r)
      rw [String.data_append, String.data_append, hf s (by simp),
        ih (fun seg hseg => hf seg (List.mem_cons_of_mem s hseg)), List.append_assoc]
      rfl

theorem parseElemTok_dumps (mid : List Char) : (elemDumps (parseElemTok mid)).data = mid := by
  cases mid with
  | nil => rfl
  | cons c t =>
    simp only [parseElemTok]
    by_cases hc : (c == dqChar || c == sqChar) = true
    · rw [if_pos hc]
      rfl
    · rw [if_neg hc]
      rfl

theorem parseItem_dumps (seg : List Char) : (itemDumps (parseItem seg)).data = seg := by
  have htrim := trimParts_append seg
  show ((⟨(trimParts seg).1⟩ : String) ++ elemDumps (parseElemTok (trimParts seg).2.1)
      ++ (⟨(trimParts seg).2.2⟩ : String)).data = seg
  rw [String.data_append, String.data_append, parseElemTok_dumps, List.append_assoc]
  exact htrim

theorem parseItems_dumps (cs : List Char) :
    (interComma ((parseItems cs).map itemDumps)).data = cs := by
  unfold parseItems
  by_cases hcs : cs.isEmpty = true
  · rw [if_pos hcs]
    rw [List.isEmpty_iff] at hcs
    subst hcs
    rfl
  · rw [if_neg hcs]
    rw [List.map_map]
    have hj := interComma_data_join (splitComma cs) (itemDumps ∘ parseItem)
      (fun seg _ => parseItem_dumps seg)
    rw [hj]
    exact splitTop_join cs 0 none

theorem parseExpr_dumps (mid : List Char) : (exprDumps (parseExpr mid)).data = mid := by
  cases mid with
  | nil => rfl
  | cons c t =>
    simp only [parseExpr]
    by_cases hc : (c == dqChar || c == sqChar) = true
    · rw [if_pos hc]
      rfl
    · rw [if_neg hc]
      by_cases hb : (c == '[') = true
      · rw [if_pos hb]
        cases hl : t.getLast? with
        | none =>
          simp only [parseBracket]
          show ('[' :: t : List Char) = c :: t
          rw [eq_of_beq hb]
        | some d =>
          simp only [parseBracket]
          by_cases hd : (d == ']') = true
          · rw [if_pos hd]
            show ("[" ++ interComma ((parseItems t.dropLast).map itemDumps) ++ "]").data
              = c :: t
            rw [String.data_append, String.data_append, parseItems_dumps]
            have ht : t.dropLast ++ [']'] = t := by
              rw [← eq_of_beq hd]
              exact List.dropLast_append_getLast? d hl
            rw [List.append_assoc, eq_of_beq hb]
            show '[' :: (t.dropLast ++ [']']) = '[' :: t
            rw [ht]
          · rw [if_neg hd]
            show ('[' :: t : List Char) = c :: t
            rw [eq_of_beq hb]
      · rw [if_neg hb]
        rfl

theorem parseArg_dumps (seg : List Char) : (argDumps (parseArg seg)).data = seg := by
  show ((⟨(trimParts seg).1⟩ : String) ++ exprDumps (parseExpr (trimParts seg).2.1)
      ++ (⟨(trimParts seg).2.2⟩ : String)).data = seg
  rw [String.data_append, String.data_append, parseExpr_dumps, List.append_assoc]
  exact trimParts_append seg

theorem parseArgs_dumps (cs : List Char) :
    (interComma ((parseArgs cs).map argDumps)).data = cs := by
  unfold parseArgs
  by_cases hcs : cs.isEmpty = true
  · rw [if_pos hcs]
    rw [List.isEmpty_iff] at hcs
    subst hcs
    rfl
  · rw [if_neg hcs]
    rw [List.map_map]
    have hj := interComma_data_join (splitComma cs) (argDumps ∘ parseArg)
      (fun seg _ => parseArg_dumps seg)
    rw [hj]
    exact splitTop_join cs 0 none

theorem parseDecoLine_dumps (l : List Char) (dec : Decorator)
    (h : parseDecoLine l = some dec) : (decDumps dec).data = l := by
  unfold parseDecoLine at h
  split at h
  case _ c t =>
    split at h
    case isTrue hc =>
      split at h
      case _ p u heqdrop =>
        split at h
        case isTrue hp =>
          cases hb : breakAtLast ')' u with
          | none =>
            rw [hb] at h
            exact Option.noConfusion h
          | some q =>
            obtain ⟨m, r⟩ := q
            rw [hb] at h
            injection h with h
            subst h
            show ("@" ++ (⟨t.takeWhile isIdentChar⟩ : String) ++ "("
              ++ interComma ((parseArgs m).map argDumps) ++ (⟨')' :: r⟩ : String)).data = c :: t
            rw [String.data_append, String.data_append, String.data_append,
              String.data_append, parseArgs_dumps]
            have hu : m ++ ')' :: r = u := breakAtLast_append ')' u m r hb
            rw [eq_of_beq hc]
            simp only [List.cons_append, List.append_assoc, List.nil_append]
            rw [hu, ← eq_of_beq hp, ← heqdrop, List.takeWhile_append_dropWhile]
        · exact Option.noConfusion h
      · exact Option.noConfusion h
    · exact Option.noConfusion h
  · exact Option.noConfusion h

theorem parseParams_dumps (cs : List Char) :
    (paramsDumps (parseParams cs)).data = cs := by
  unfold parseParams paramsDumps
  by_cases hcs : cs.isEmpty = true
  · rw [if_pos hcs]
    rw [List.isEmpty_iff] at hcs
    subst hcs
    rfl
  · rw [if_neg hcs]
    rw [List.map_map]
    have hj := interComma_data_join (splitComma cs)
      (paramDumps ∘ fun seg => ⟨⟨seg.takeWhile isSpaceChar⟩,
        ⟨(seg.dropWhile isSpaceChar).takeWhile isIdentChar⟩,
        ⟨(seg.dropWhile isSpaceChar).dropWhile isIdentChar⟩⟩)
      (fun seg _ => by
        show ((⟨seg.takeWhile isSpaceChar⟩ : String)
          ++ (⟨(seg.dropWhile isSpaceChar).takeWhile isIdentChar⟩ : String)
          ++ (⟨(seg.dropWhile isSpaceChar).dropWhile isIdentChar⟩ : String)).data = seg
        rw [String.data_append, String.data_append, List.append_assoc]
        show seg.takeWhile isSpaceChar
          ++ ((seg.dropWhile isSpaceChar).takeWhile isIdentChar
            ++ (seg.dropWhile isSpaceChar).dropWhile isIdentChar) = seg
        rw [List.takeWhile_append_dropWhile, List.takeWhile_append_dropWhile])
    rw [hj]
    exact splitTop_join cs 0 none

theorem parseDefLine_dumps (l : List Char) (hdr nm : String) (ps : List Param)
    (ftr : String) (h : parseDefLine l = some (hdr, nm, ps, ftr)) :
    hdr.data ++ ((paramsDumps ps).data ++ ftr.data) = l := by
  unfold parseDefLine at h
  split at h
  case _ h1 t heq1 =>
    split at h
    case _ m r heq2 =>
      injection h with h
      injection h with e1 h
      injection h with e2 h
      injection h with e3 e4
      subst e1
      subst e3
      subst e4
      rw [parseParams_dumps]
      have hu : m ++ ')' :: r = t := breakAtLast_append ')' t m r heq2
      have hl : h1 ++ '(' :: t = l := breakAt_append '(' l h1 t heq1
      show (h1 ++ ['(']) ++ (m ++ ')' :: r) = l
      rw [hu, List.append_assoc]
      show h1 ++ ('(' :: t) = l
      exact hl
    · exact Option.noConfusion h
  · exact Option.noConfusion h

theorem mapM_decDumps (decoLines : List (List Char)) (decs : List Decorator)
    (h : decoLines.mapM parseDecoLine = some decs) :
    (catList (decs.map decDumps)).data = decoLines.flatten := by
  induction decoLines generalizing decs with
  | nil =>
    rw [List.mapM_nil] at h
    injection h with h
    subst h
    rfl
  | cons l ls ih =>
    rw [List.mapM_cons] at h
    cases hd : parseDecoLine l with
    | none =>
      rw [hd] at h
      exact Option.noConfusion h
    | some dec =>
      rw [hd] at h
      cases hds : ls.mapM parseDecoLine with
      | none =>
        rw [hds] at h
        exact Option.noConfusion h
      | some ds =>
        rw [hds] at h
        injection h with h
        subst h
        rw [List.map_cons, catList_cons, String.data_append, parseDecoLine_dumps l dec hd,
          ih ds hds, List.flatten_cons]

theorem groupNodesF_dumps (fuel : Nat) (ls : List (List Char)) (ns : List TopNode)
    (h : groupNodesF fuel ls = some ns) :
    (catList (ns.map topDumps)).data = ls.flatten := by
  induction fuel generalizing ls ns with
  | zero =>
    cases ls with
    | nil =>
      injection h with h
      subst h
      rfl
    | cons l ls2 => exact Option.noConfusion h
  | succ f ih =>
    cases ls with
    | nil =>
      injection h with h
      subst h
      rfl
    | cons l ls2 =>
      unfold groupNodesF at h
      by_cases h1 : isDecoLine l = true
      · rw [if_pos h1] at h
        split at h
        · exact Option.noConfusion h
        case _ dl rest2 heqdrop =>
          split at h
          case isTrue hdl =>
            simp only [] at h
            split at h
            case _ decs hdr nm ps ftr ns2 hdecs hdefl hrec =>
              injection h with h
              subst h
              rw [List.map_cons, catList_cons, String.data_append]
              show (defDumps ⟨decs, hdr, nm, ps, ftr ++ joinLines (rest2.takeWhile isBodyLine)⟩).data
                  ++ (catList (ns2.map topDumps)).data = (l :: ls2).flatten
              rw [ih _ _ hrec]
              unfold defDumps
              rw [String.data_append, String.data_append, String.data_append,
                String.data_append]
              rw [mapM_decDumps _ _ hdecs]
              have hdl2 := parseDefLine_dumps dl hdr nm ps ftr hdefl
              have hflat : (l :: ls2).flatten
                  = l ++ ((ls2.takeWhile isDecoLine).flatten
                    ++ (dl ++ ((rest2.takeWhile isBodyLine).flatten
                      ++ (rest2.dropWhile isBodyLine).flatten))) := by
                rw [List.flatten_cons]
                congr 1
                conv_lhs => rw [← List.takeWhile_append_dropWhile (p := isDecoLine) (l := ls2)]
                rw [heqdrop, List.flatten_append, List.flatten_cons]
                congr 2
                conv_lhs => rw [← List.takeWhile_append_dropWhile (p := isBodyLine) (l := rest2)]
                rw [List.flatten_append]
              rw [hflat, ← hdl2]
              show (l :: ls2.takeWhile isDecoLine).flatten
                  ++ hdr.data ++ (paramsDumps ps).data
                  ++ ((ftr ++ joinLines (rest2.takeWhile isBodyLine)).data)
                  ++ (rest2.dropWhile isBodyLine).flatten = _
              rw [String.data_append, List.flatten_cons]
              show _ ++ _ ++ _ ++ (_ ++ ((⟨(rest2.takeWhile isBodyLine).flatten⟩ : String).data)) ++ _ = _
              simp only [List.append_assoc]
            · exact Option.noConfusion h
          · exact Option.noConfusion h
      · rw [if_neg h1] at h
        by_cases h2 : isDefLine l = true
        · rw [if_pos h2] at h
          simp only [] at h
          split at h
          case _ hdr nm ps ftr ns2 hdefl hrec =>
            injection h with h
            subst h
            rw [List.map_cons, catList_cons, String.data_append]
            show (defDumps ⟨[], hdr, nm, ps, ftr ++ joinLines (ls2.takeWhile isBodyLine)⟩).data
                ++ (catList (ns2.map topDumps)).data = (l :: ls2).flatten
            rw [ih _ _ hrec]
            unfold defDumps
            rw [String.data_append, String.data_append, String.data_append,
              String.data_append]
            have hdl2 := parseDefLine_dumps l hdr nm ps ftr hdefl
            have hflat : (l :: ls2).flatten
                = l ++ ((ls2.takeWhile isBodyLine).flatten
                  ++ (ls2.dropWhile isBodyLine).flatten) := by
              rw [List.flatten_cons]
              congr 1
              conv_lhs => rw [← List.takeWhile_append_dropWhile (p := isBodyLine) (l := ls2)]
              rw [List.flatten_append]
            rw [hflat, ← hdl2]
            show (catList ([] : List String)).data ++ hdr.data ++ (paramsDumps ps).data
                ++ ((ftr ++ joinLines (ls2.takeWhile isBodyLine)).data)
                ++ (ls2.dropWhile isBodyLine).flatten = _
            rw [String.data_append]
            simp only [List.append_assoc]
            rfl
          · exact Option.noConfusion h
        · rw [if_neg h2] at h
          cases hrec : groupNodesF f ls2 with
          | none =>
            rw [hrec] at h
            exact Option.noConfusion h
          | some ns2 =>
            rw [hrec] at h
            injection h with h
            subst h
            rw [List.map_cons, catList_cons, String.data_append, ih _ _ hrec,
              List.flatten_cons]
            rfl

/-- Round trip of parsing: when the model parser accepts a text, serializing
the resulting tree restores the text byte for byte. -/
theorem parse_dumps (fp content : String) (pf : PythonFile)
    (h : parse fp content = some pf) : get_code pf = content := by
  unfold parse at h
  cases hg : groupNodesF (splitLines content.data).length (splitLines content.data) with
  | none =>
    rw [hg] at h
    exact Option.noConfusion h
  | some ns =>
    rw [hg] at h
    injection h with h
    subst h
    apply String.ext
    show (catList (ns.map topDumps)).data = content.data
    rw [groupNodesF_dumps _ _ _ hg]
    unfold splitLines
    exact splitLinesF_join _ _

/-! Inversion lemmas for resolution and location. -/

theorem stepDec_decomp (ds : List Decorator) (dec : Decorator)
    (h : ds.find? (fun x => x.name == "step") = some dec) :
    ∃ post, ds.dropWhile notStepDec = dec :: post := by
  induction ds with
  | nil => exact Option.noConfusion h
  | cons b t ih =>
    by_cases hb : (b.name == "step") = true
    · rw [List.find?_cons_of_pos (p := fun x => x.name == "step") t hb] at h
      injection h with h
      subst h
      refine ⟨t, ?_⟩
      rw [List.dropWhile_cons, if_neg]
      unfold notStepDec
      rw [hb]
      simp
    · rw [List.find?_cons_of_neg (p := fun x => x.name == "step") t (by simpa using hb)] at h
      obtain ⟨post, hpost⟩ := ih h
      refine ⟨post, ?_⟩
      rw [List.dropWhile_cons, if_pos]
      · exact hpost
      · unfold notStepDec
        rw [Bool.not_eq_true] at hb
        rw [hb]
        simp

theorem sda_some (fp : String) (dec : Decorator) (v : PyVal)
    (h : (step_decorator_args fp dec).1 = some v) :
    ∃ a, dec.args = [a] ∧ toPython a.value = some v := by
  unfold step_decorator_args at h
  split at h
  case _ a heqargs =>
    split at h
    case _ v0 hv0 =>
      split at h
      · injection h with h
        subst h
        exact ⟨a, heqargs, hv0⟩
      · exact Option.noConfusion h
    · exact Option.noConfusion h
  · exact Option.noConfusion h

theorem toPython_str (e : ExprNode) (s : String) (h : toPython e = some (PyVal.str s)) :
    ∃ raw, e = ExprNode.str raw ∧ unquote raw = some s := by
  cases e with
  | str raw =>
    refine ⟨raw, rfl, ?_⟩
    simp only [toPython] at h
    cases hu : unquote raw with
    | none => rw [hu] at h; exact Option.noConfusion h
    | some s0 =>
      rw [hu] at h
      injection h with h
      injection h with h
      subst h
      rfl
  | lst openB items closeB =>
    simp only [toPython] at h
    cases hm : items.mapM fun it => elemToPython it.elem with
    | none => rw [hm] at h; exact Option.noConfusion h
    | some xs =>
      rw [hm] at h
      injection h with h
      exact PyVal.noConfusion h
  | other raw ev =>
    simp only [toPython] at h
    split at h
    · injection h with h
      exact PyVal.noConfusion h
    · exact Option.noConfusion h

theorem toPython_list (e : ExprNode) (xs : List PyElem)
    (h : toPython e = some (PyVal.list xs)) :
    ∃ openB items closeB, e = ExprNode.lst openB items closeB
      ∧ items.mapM (fun it => elemToPython it.elem) = some xs := by
  cases e with
  | str raw =>
    simp only [toPython] at h
    cases hu : unquote raw with
    | none => rw [hu] at h; exact Option.noConfusion h
    | some s0 =>
      rw [hu] at h
      injection h with h
      exact PyVal.noConfusion h
  | lst openB items closeB =>
    simp only [toPython] at h
    cases hm : items.mapM fun it => elemToPython it.elem with
    | none => rw [hm] at h; exact Option.noConfusion h
    | some ys =>
      rw [hm] at h
      injection h with h
      injection h with h
      subst h
      exact ⟨openB, items, closeB, rfl, hm⟩
  | other raw ev =>
    simp only [toPython] at h
    split at h
    · injection h with h
      exact PyVal.noConfusion h
    · exact Option.noConfusion h

theorem elemToPython_str (el : ListElem) (s : String)
    (h : elemToPython el = some (PyElem.str s)) :
    ∃ raw, el = ListElem.str raw ∧ unquote raw = some s := by
  cases el with
  | str raw =>
    refine ⟨raw, rfl, ?_⟩
    simp only [elemToPython] at h
    cases hu : unquote raw with
    | none => rw [hu] at h; exact Option.noConfusion h
    | some s0 =>
      rw [hu] at h
      injection h with h
      injection h with h
      subst h
      rfl
  | other raw ev =>
    simp only [elemToPython] at h
    split at h
    · injection h with h
      exact PyElem.noConfusion h
    · exact Option.noConfusion h

theorem mapM_some_getElem {α β : Type} (f : α → Option β) (l : List α) (r : List β)
    (h : l.mapM f = some r) (j : Nat) (b : β) (hb : r[j]? = some b) :
    ∃ a, l[j]? = some a ∧ f a = some b := by
  induction l generalizing r j with
  | nil =>
    rw [List.mapM_nil] at h
    injection h with h
    subst h
    rw [List.getElem?_nil] at hb
    exact Option.noConfusion hb
  | cons x xs ih =>
    rw [List.mapM_cons] at h
    cases hx : f x with
    | none => rw [hx] at h; exact Option.noConfusion h
    | some bx =>
      rw [hx] at h
      cases hxs : xs.mapM f with
      | none => rw [hxs] at h; exact Option.noConfusion h
      | some bs =>
        rw [hxs] at h
        injection h with h
        subst h
        cases j with
        | zero =>
          rw [List.getElem?_cons_zero] at hb
          injection hb with hb
          subst hb
          exact ⟨x, List.getElem?_cons_zero, hx⟩
        | succ k =>
          rw [List.getElem?_cons_succ] at hb
          obtain ⟨a, ha1, ha2⟩ := ih bs hxs k hb
          exact ⟨a, by rw [List.getElem?_cons_succ]; exact ha1, ha2⟩

theorem unquote_shape (raw s : String) (h : unquote raw = some s) :
    raw.data ≠ [] ∧ nlChar ∉ raw.data := by
  unfold unquote at h
  split at h
  · exact Option.noConfusion h
  case _ q rest heq =>
    split at h
    case isTrue hcond =>
      rw [Bool.and_eq_true, Bool.and_eq_true, Bool.and_eq_true] at hcond
      obtain ⟨⟨⟨hq, hne⟩, hlast⟩, hall⟩ := hcond
      constructor
      · rw [heq]
        exact List.cons_ne_nil q rest
      · rw [heq]
        intro hmem
        have hqnl : q ≠ nlChar := by
          rcases Bool.or_eq_true _ _ |>.mp hq with h1 | h1
          · rw [eq_of_beq h1]
            decide
          · rw [eq_of_beq h1]
            decide
        rcases List.mem_cons.mp hmem with h1 | h1
        · exact hqnl h1.symm
        · have hlast2 : rest.getLast? = some q := by
            have := (beq_iff_eq (a := rest.getLast?) (b := some q)).mp hlast
            exact this
          have hrest : rest.dropLast ++ [q] = rest :=
            List.dropLast_append_getLast? q hlast2
          rw [← hrest] at h1
          rcases List.mem_append.mp h1 with h2 | h2
          · have := List.all_eq_true.mp hall nlChar h2
            simp only [Bool.not_eq_true', Bool.or_eq_false_iff, beq_eq_false_iff_ne] at this
            exact this.2 rfl
          · rcases List.mem_singleton.mp h2 with h3
            exact hqnl h3.symm
    · exact Option.noConfusion h

theorem locParts_some_str (pf : PythonFile) (loc : StepLoc) (d : DefNode)
    (dec : Decorator) (post : List Decorator) (a : CallArg) (raw : String)
    (heq : pf.py_tree[loc.nodeIdx]? = some (TopNode.def_ d))
    (hdrop : d.decorators.dropWhile notStepDec = dec :: post)
    (hargs : dec.args = [a])
    (helem : loc.elemIdx = none)
    (hval : a.value = ExprNode.str raw) :
    locParts pf loc = some
      (catList ((pf.py_tree.take loc.nodeIdx).map topDumps)
         ++ catList ((d.decorators.takeWhile notStepDec).map decDumps)
         ++ dec.pre ++ dec.name ++ dec.callOpen ++ a.pre,
       raw,
       a.post ++ "" ++ dec.callClose ++ catList (post.map decDumps)
         ++ d.header ++ paramsDumps d.params ++ d.footer
         ++ catList ((pf.py_tree.drop (loc.nodeIdx + 1)).map topDumps)) := by
  unfold locParts
  simp only [heq, hdrop, hargs, helem, hval, List.map_nil, catList_nil]

theorem locParts_some_lst (pf : PythonFile) (loc : StepLoc) (d : DefNode)
    (dec : Decorator) (post : List Decorator) (a : CallArg) (j : Nat)
    (openB : String) (items : List ListItem) (closeB : String) (it : ListItem)
    (heq : pf.py_tree[loc.nodeIdx]? = some (TopNode.def_ d))
    (hdrop : d.decorators.dropWhile notStepDec = dec :: post)
    (hargs : dec.args = [a])
    (helem : loc.elemIdx = some j)
    (hval : a.value = ExprNode.lst openB items closeB)
    (hit : items[j]? = some it) :
    locParts pf loc = some
      ((catList ((pf.py_tree.take loc.nodeIdx).map topDumps)
         ++ catList ((d.decorators.takeWhile notStepDec).map decDumps)
         ++ dec.pre ++ dec.name ++ dec.callOpen ++ a.pre)
         ++ openB ++ catList ((items.take j).map (fun x => itemDumps x ++ ",")) ++ it.pre,
       elemDumps it.elem,
       it.post ++ catList ((items.drop (j + 1)).map (fun x => "," ++ itemDumps x)) ++ closeB
         ++ (a.post ++ "" ++ dec.callClose ++ catList (post.map decDumps)
           ++ d.header ++ paramsDumps d.params ++ d.footer
           ++ catList ((pf.py_tree.drop (loc.nodeIdx + 1)).map topDumps))) := by
  unfold locParts
  simp only [heq, hdrop, hargs, helem, hval, hit, List.map_nil, catList_nil]

/-- A successful location always points at a string literal node whose
evaluation is the old text; its text decomposes the serialized file. -/
theorem find_locParts (pf : PythonFile) (old : String) (loc : StepLoc)
    (hf : find_step_node pf old = .ok (some loc)) :
    ∃ P M S, locParts pf loc = some (P, M, S) ∧ unquote M = some old := by
  obtain ⟨d, dec, hmem, hne, hcase⟩ :=
    findStepAux_sound pf.file_path old (stepCandidates pf.py_tree) loc hf
  obtain ⟨heq, hfind⟩ := stepCandidates_mem pf.py_tree loc.nodeIdx d dec hmem
  obtain ⟨post, hdrop⟩ := stepDec_decomp _ dec hfind
  rcases hcase with ⟨helem, hs⟩ | ⟨xs, hlv, hmemxs, helem⟩
  · obtain ⟨a, hargs, htp⟩ := sda_some _ dec _ hs
    obtain ⟨raw, hvals, hunq⟩ := toPython_str _ _ htp
    exact ⟨_, _, _, locParts_some_str pf loc d dec post a raw heq hdrop hargs helem hvals,
      hunq⟩
  · obtain ⟨a, hargs, htp⟩ := sda_some _ dec _ hlv
    obtain ⟨ob, items, cb, hvals, hmapm⟩ := toPython_list _ _ htp
    have hxj : xs[pyIndex (PyElem.str old) xs]? = some (PyElem.str old) :=
      getElem?_pyIndex _ _ hmemxs
    obtain ⟨it, hit, hel⟩ := mapM_some_getElem _ items xs hmapm _ _ hxj
    obtain ⟨raw, hraw, hunq⟩ := elemToPython_str _ _ hel
    refine ⟨_, _, _,
      locParts_some_lst pf loc d dec post a _ ob items cb it heq hdrop hargs helem hvals hit,
      ?_⟩
    rw [hraw]
    exact hunq

/-- When no scanned candidate matches and every step decorator call has at
least one argument, the locator returns none. -/
theorem findStepAux_none (fp old : String) (cands : List (Nat × DefNode × Decorator))
    (h : ∀ c ∈ cands, c.2.2.args ≠ []
      ∧ (step_decorator_args fp c.2.2).1 ≠ some (PyVal.str old)
      ∧ ∀ xs, (step_decorator_args fp c.2.2).1 = some (PyVal.list xs)
          → PyElem.str old ∉ xs) :
    findStepAux fp old cands = .ok none := by
  induction cands with
  | nil => rfl
  | cons c rest ih =>
    obtain ⟨i, d, dec⟩ := c
    obtain ⟨hne, hns, hnl⟩ := h _ (List.mem_cons_self _ _)
    have hrest := ih (fun c hc => h c (List.mem_cons_of_mem _ hc))
    rw [findStepAux_cons]
    cases hargs : dec.args with
    | nil => exact absurd hargs hne
    | cons a r =>
      simp only [hargs, if_neg hns]
      cases hv : (step_decorator_args fp dec).1 with
      | none =>
        simp only [hv]
        exact hrest
      | some v =>
        cases v with
        | str s =>
          simp only [hv]
          exact hrest
        | list xs =>
          simp only [hv, if_neg (hnl xs hv)]
          exact hrest
        | other =>
          simp only [hv]
          exact hrest

/-- The names built by the refactor loop agree with the naming rule written
from the claim. -/
theorem buildNamesAux_spec (old : List Param) (i : Nat) (move : List Int)
    (names : List String) (h : buildNamesAux old i move = .ok names) :
    names = specNamesAux old i move := by
  induction move generalizing i names with
  | nil =>
    injection h with h
    subst h
    rfl
  | cons mv rest ih =>
    unfold buildNamesAux at h
    by_cases hneg : mv < 0
    · rw [if_pos hneg] at h
      cases hrec : buildNamesAux old (i + 1) rest with
      | error e => rw [hrec] at h; exact Except.noConfusion h
      | ok ns =>
        rw [hrec] at h
        injection h with h
        subst h
        unfold specNamesAux
        rw [if_pos hneg, ih (i + 1) ns hrec]
    · rw [if_neg hneg] at h
      cases hget : old[mv.toNat]? with
      | none =>
        rw [hget] at h
        exact Except.noConfusion h
      | some p =>
        rw [hget] at h
        cases hrec : buildNamesAux old (i + 1) rest with
        | error e => rw [hrec] at h; exact Except.noConfusion h
        | ok ns =>
          rw [hrec] at h
          injection h with h
          subst h
          unfold specNamesAux
          rw [if_neg hneg, hget, ih (i + 1) ns hrec]
          rfl

theorem mkParams_post (names : List String) : ∀ p ∈ mkParams names, p.post = "" := by
  cases names with
  | nil => intro p hp; cases hp
  | cons n rest =>
    intro p hp
    rcases List.mem_cons.mp hp with h | h
    · rw [h]
    · obtain ⟨m, _, hm⟩ := List.mem_map.mp h
      rw [← hm]

/-! # Claim theorems -/

/-- C3: identity remap is a no-op on parameters.  When a step matching the old
text is located on a function with n parameters and refactor_step is called
with the identity move list 0, 1, ..., n-1, exactly one edit is returned (the
step-text edit) and the parameter list of the function in the mutated tree is
unmodified. -/
theorem identity_remap_single_edit (pf : PythonFile) (old new : String)
    (loc : StepLoc) (d : DefNode)
    (hf : find_step_node pf old = .ok (some loc))
    (hd : pf.py_tree[loc.nodeIdx]? = some (TopNode.def_ d)) :
    ∃ (e : Span × String) (pf1 : PythonFile) (d1 : DefNode),
      refactor_step pf old new (identityMove d.params.length) = .ok ([e], pf1)
      ∧ defAt pf1 loc.nodeIdx = some d1 ∧ d1.params = d.params := by
  obtain ⟨P, M, S, hp, hunq⟩ := find_locParts pf old loc hf
  have hdef : defAt pf loc.nodeIdx = some d := by
    unfold defAt
    rw [hd]
  obtain ⟨d1, hrf, hcode, hparams, _, _, _⟩ :=
    refactor_step_identity pf old new loc P M S d hf hp hdef
  refine ⟨_, _, d1, hrf, ?_, hparams⟩
  unfold defAt
  rw [List.getElem?_set_self (getElem?_lt hd)]

/-- Witness for C3 at a concrete two-parameter function. -/
theorem identity_remap_single_edit_witness :
    ∃ (e : Span × String) (pf1 : PythonFile) (d1 : DefNode),
      refactor_step pfStrEx "S" "T" (identityMove dStrEx.params.length) = .ok ([e], pf1)
      ∧ defAt pf1 (StepLoc.mk 0 none).nodeIdx = some d1 ∧ d1.params = dStrEx.params :=
  identity_remap_single_edit pfStrEx "S" "T" ⟨0, none⟩ dStrEx (by rfl) (by rfl)

/-- C5 counterexample: a tree containing a zero-argument step decorator has no
matching step for the old text, yet refactor_step raises IndexError (models
decorator.call.value[0] at line 97) instead of returning an empty edit
list. -/
theorem no_match_noop_cex :
    (∀ c ∈ stepCandidates pfZeroEx.py_tree,
      (step_decorator_args pfZeroEx.file_path c.2.2).1 = none)
    ∧ refactor_step pfZeroEx "nonexistent" "x" []
        = .error "IndexError: list index out of range" := by
  constructor
  · intro c hc
    have : stepCandidates pfZeroEx.py_tree
        = [(0, dZeroEx, ⟨"@", "step", "(", [], ")\n"⟩)] := rfl
    rw [this] at hc
    rcases List.mem_singleton.mp hc with h
    subst h
    rfl
  · rfl

/-- C5 (amended): for every tree in which every step decorator call has at
least one argument and no resolved argument equals the old text (string case)
or contains it (list case), refactor_step returns an empty edit list and the
same unmutated tree, so a subsequent dumps reproduces the pre-call text. -/
theorem no_match_noop (pf : PythonFile) (old new : String) (move : List Int)
    (hnm : ∀ c ∈ stepCandidates pf.py_tree, c.2.2.args ≠ []
      ∧ (step_decorator_args pf.file_path c.2.2).1 ≠ some (PyVal.str old)
      ∧ ∀ xs, (step_decorator_args pf.file_path c.2.2).1 = some (PyVal.list xs)
          → PyElem.str old ∉ xs) :
    refactor_step pf old new move = .ok ([], pf) := by
  have hfind : find_step_node pf old = .ok none :=
    findStepAux_none pf.file_path old (stepCandidates pf.py_tree) hnm
  simp only [refactor_step, hfind]

/-- Witness for C5 at a concrete non-matching tree. -/
theorem no_match_noop_witness :
    refactor_step pfStrEx "nonexistent" "x" [] = .ok ([], pfStrEx) := by
  apply no_match_noop
  intro c hc
  have : stepCandidates pfStrEx.py_tree
      = [(0, dStrEx, ⟨"@", "step", "(", [⟨"", ExprNode.str "\"S\"", ""⟩], ")\n"⟩)] := rfl
  rw [this] at hc
  rcases List.mem_singleton.mp hc with h
  subst h
  refine ⟨by decide, by decide, ?_⟩
  intro xs hxs
  have : (step_decorator_args pfStrEx.file_path
      ((0, dStrEx, ⟨"@", "step", "(", [⟨"", ExprNode.str "\"S\"", ""⟩], ")\n"⟩)
        : Nat × DefNode × Decorator).2.2).1 = some (PyVal.str "S") := rfl
  rw [this] at hxs
  injection hxs with hxs
  exact PyVal.noConfusion hxs

/-- C7: a step decorator call whose argument list does not have length one
resolves to an absent value with exactly one logged error (the accepts only
one argument message), and the discovery step yields no StepIndex for that
function. -/
theorem single_argument_rule (pf : PythonFile) (i : Nat) (d : DefNode)
    (dec : Decorator) (h : dec.args.length ≠ 1) :
    step_decorator_args pf.file_path dec
      = (none, ["Decorator step accepts only one argument - " ++ pf.file_path])
    ∧ stepOfCandidate pf (i, d, dec) = none := by
  have hsda : step_decorator_args pf.file_path dec
      = (none, ["Decorator step accepts only one argument - " ++ pf.file_path]) := by
    unfold step_decorator_args
    split
    case _ a heq =>
      exact absurd (by rw [heq]; rfl) h
    · rfl
  refine ⟨hsda, ?_⟩
  unfold stepOfCandidate
  rw [hsda]

/-- Witness for C7 at a zero-argument decorator. -/
theorem single_argument_rule_witness :
    step_decorator_args pfZeroEx.file_path (Decorator.mk "@" "step" "(" [] ")\n")
      = (none, ["Decorator step accepts only one argument - " ++ pfZeroEx.file_path])
    ∧ stepOfCandidate pfZeroEx (0, dZeroEx, Decorator.mk "@" "step" "(" [] ")\n") = none :=
  single_argument_rule pfZeroEx 0 dZeroEx ⟨"@", "step", "(", [], ")\n"⟩ (by decide)

/-- C9: spans are derived from 1-based bounding boxes with the start column
clamped via max(0, column - 1) and the end column via max(0, column); a node
without bounding-box metadata yields the sentinel Span(0,0,0,0); and every
top-level node of a tree has a computed span whose start line is at least 1,
so the sentinel is distinguishable from any real function span. -/
theorem span_conversion_and_sentinel :
    (∀ b : BBox, span_for_node (some b)
        = ⟨b.topLine, max 0 (b.topCol - 1), b.botLine, max 0 b.botCol⟩)
    ∧ span_for_node none = ⟨0, 0, 0, 0⟩
    ∧ ∀ (pf : PythonFile) (i : Nat) (b : BBox), defBox pf i = some b →
        1 ≤ (span_for_node (defBox pf i)).startLine := by
  refine ⟨fun b => rfl, rfl, ?_⟩
  intro pf i b hb
  rw [hb]
  cases hval : pf.py_tree[i]? with
  | none =>
    unfold defBox at hb
    rw [hval] at hb
    exact Option.noConfusion hb
  | some n =>
    unfold defBox at hb
    rw [hval] at hb
    injection hb with hb
    subst hb
    rw [span_bbox_eval]
    show (1 : Int) ≤ ((1 + (beforeNodes pf i).data.count nlChar : Nat) : Int)
    push_cast
    omega

/-- Witness for C9 at a concrete tree. -/
theorem span_conversion_and_sentinel_witness :
    1 ≤ (span_for_node (defBox pfStrEx 0)).startLine :=
  span_conversion_and_sentinel.2.2 pfStrEx 0
    (bboxOf (beforeNodes pfStrEx 0) (topDumps (TopNode.def_ dStrEx))) (by rfl)

/-- C2: round trip of parsing.  For every source text the model parser
accepts, serializing the unmutated tree returns a string byte-identical to the
input. -/
theorem parse_roundtrip (fp content : String) (pf : PythonFile)
    (h : parse fp content = some pf) : get_code pf = content :=
  parse_dumps fp content pf h

/-- Witness for C2 at a concrete source text. -/
theorem parse_roundtrip_witness :
    ∃ pf, parse "steps.py" roundTripContent = some pf
      ∧ get_code pf = roundTripContent :=
  ⟨_, rfl, parse_roundtrip "steps.py" roundTripContent _ rfl⟩

/-- C6 counterexample: an empty string literal resolves successfully (the
resolver returns the empty string), yet iter_steps yields nothing for that
function because the truthiness guard at line 89 drops falsy values. -/
theorem discovery_completeness_cex :
    (step_decorator_args pfEmptyEx.file_path
        (Decorator.mk "@" "step" "(" [CallArg.mk "" (ExprNode.str "\"\"") ""] ")\n")).1
      = some (PyVal.str "")
    ∧ iter_steps pfEmptyEx = [] := ⟨rfl, rfl⟩

/-- C6 (amended): for every top-level function carrying a step decorator whose
single argument resolves successfully to a truthy (non-empty) string or list,
iter_steps yields a StepIndex carrying the resolved value, the function name,
the file path, and a lazy span over the function node. -/
theorem discovery_completeness (pf : PythonFile) (i : Nat) (d : DefNode)
    (dec : Decorator) (v : PyVal) (logs : List String)
    (hd : pf.py_tree[i]? = some (TopNode.def_ d))
    (hdec : d.decorators.find? (fun x => x.name == "step") = some dec)
    (hv : step_decorator_args pf.file_path dec = (some v, logs))
    (ht : pyTruthy v = true) :
    ∃ fs ∈ iter_steps pf, fs.steps = v ∧ fs.func = d.name ∧ fs.file_path = pf.file_path
      ∧ fs.span () = span_for_node (defBox pf i) := by
  have hmem := stepCandidates_complete pf.py_tree i d dec hd hdec
  refine ⟨⟨v, d.name, pf.file_path, fun _ => span_for_node (defBox pf i)⟩, ?_,
    rfl, rfl, rfl, rfl⟩
  unfold iter_steps
  apply List.mem_filterMap.mpr
  refine ⟨(i, d, dec), hmem, ?_⟩
  unfold stepOfCandidate
  simp only [hv, ht, if_true]

/-- Witness for C6 at a concrete tree. -/
theorem discovery_completeness_witness :
    ∃ fs ∈ iter_steps pfStrEx, fs.steps = PyVal.str "S" ∧ fs.func = dStrEx.name
      ∧ fs.file_path = pfStrEx.file_path ∧ fs.span () = span_for_node (defBox pfStrEx 0) :=
  discovery_completeness pfStrEx 0 dStrEx
    ⟨"@", "step", "(", [⟨"", ExprNode.str "\"S\"", ""⟩], ")\n"⟩
    (PyVal.str "S") [] (by rfl) (by rfl) (by rfl) (by rfl)

/-- C8 (code bug): the failing input is a file whose step decorator call has
zero arguments.  The refactor location scan is meant to skip such functions
and continue, but the argument-node access decorator.call.value[0] at line 97
runs before any check and raises IndexError, aborting the scan.  The theorem
evaluates the model at the failing input: parsing the file succeeds and the
location scan stops with the IndexError instead of completing. -/
theorem zero_arg_scan_raises :
    parse "steps.py" zeroArgContent = some pfZeroEx
    ∧ find_step_node pfZeroEx "x" = .error "IndexError: list index out of range" :=
  ⟨rfl, rfl⟩

/-- C4 counterexample: with move list [-1, 0] on a matching function with old
parameters a and b, the emitted parameter-list edit text is arg1, a (position
1 is sourced from old index 0, whose name is a), not arg1, b as the claim
states. -/
theorem param_synthesis_example_cex :
    (refactor_step pfStrEx "S" "T" [-1, 0]).map (fun r => r.1.map Prod.snd)
      = .ok ["\"T\"", "arg1, a"]
    ∧ "arg1, a" ≠ "arg1, b" := by
  refine ⟨rfl, ?_⟩
  intro h
  exact absurd (congrArg String.data h) (by decide)

/-- C4 (amended): when refactor_step performs a parameter rewrite, the new
parameter name at position i is arg(i+1) when move_param_from_idx at i is
negative and otherwise the name of the old parameter at that index; the
parameter-list edit carries the comma-space join of those names and follows
the step-text edit.  In particular with move list [-1, 0] on old parameters a
and b the replacement text is arg1, a. -/
theorem param_synthesis_names (pf : PythonFile) (old new : String) (loc : StepLoc)
    (d : DefNode) (move : List Int) (names : List String)
    (hf : find_step_node pf old = .ok (some loc))
    (hd : pf.py_tree[loc.nodeIdx]? = some (TopNode.def_ d))
    (hid : (d.params.length == move.length && idCheckAux 0 move) = false)
    (hnames : buildNamesAux d.params 0 move = .ok names) :
    names = specParamNames d.params move
    ∧ ∃ (e1 : Span × String) (sp2 : Span) (pf2 : PythonFile),
        refactor_step pf old new move = .ok ([e1, (sp2, joinCommaSpace names)], pf2) := by
  obtain ⟨P, M, S, hp, hunq⟩ := find_locParts pf old loc hf
  have hdef : defAt pf loc.nodeIdx = some d := by
    unfold defAt
    rw [hd]
  obtain ⟨d1, sp2, pf2, hrf, hparams, hpf2, hdef2⟩ :=
    refactor_step_remap pf old new loc P M S d move names hf hp hdef hid hnames
  refine ⟨buildNamesAux_spec d.params 0 move names hnames,
    (span_for_node (some (bboxOf P M)), pyReplace M old new), sp2, pf2, ?_⟩
  rw [hrf, paramsDumps_mkParams]

/-- Witness for C4 at the concrete two-parameter function. -/
theorem param_synthesis_names_witness :
    (["arg1", "a"] : List String) = specParamNames dStrEx.params [-1, 0]
    ∧ ∃ (e1 : Span × String) (sp2 : Span) (pf2 : PythonFile),
        refactor_step pfStrEx "S" "T" [-1, 0]
          = .ok ([e1, (sp2, joinCommaSpace ["arg1", "a"])], pf2) :=
  param_synthesis_names pfStrEx "S" "T" ⟨0, none⟩ dStrEx [-1, 0] ["arg1", "a"]
    (by rfl) (by rfl) (by rfl) (by rfl)

/-- C10 (implicit): when refactor_step emits a parameter-list edit, the
replacement text is exactly the selected names joined by comma-space, and the
function's parameter list on the mutated tree consists of bare name
parameters: any annotation or default text of the old parameters is discarded
because only the old parameter's name is read. -/
theorem bare_names_param_rewrite (pf : PythonFile) (old new : String) (loc : StepLoc)
    (d : DefNode) (move : List Int) (names : List String)
    (hf : find_step_node pf old = .ok (some loc))
    (hd : pf.py_tree[loc.nodeIdx]? = some (TopNode.def_ d))
    (hid : (d.params.length == move.length && idCheckAux 0 move) = false)
    (hnames : buildNamesAux d.params 0 move = .ok names) :
    ∃ (e1 : Span × String) (sp2 : Span) (pf2 : PythonFile) (d2 : DefNode),
      refactor_step pf old new move = .ok ([e1, (sp2, joinCommaSpace names)], pf2)
      ∧ defAt pf2 loc.nodeIdx = some d2 ∧ d2.params = mkParams names
      ∧ paramsDumps d2.params = joinCommaSpace names
      ∧ ∀ p ∈ d2.params, p.post = "" := by
  obtain ⟨P, M, S, hp, hunq⟩ := find_locParts pf old loc hf
  have hdef : defAt pf loc.nodeIdx = some d := by
    unfold defAt
    rw [hd]
  obtain ⟨d1, sp2, pf2, hrf, hparams, hpf2, hdef2⟩ :=
    refactor_step_remap pf old new loc P M S d move names hf hp hdef hid hnames
  refine ⟨(span_for_node (some (bboxOf P M)), pyReplace M old new), sp2, pf2,
    { d1 with params := mkParams names }, ?_, hdef2, rfl, ?_, ?_⟩
  · rw [hrf, paramsDumps_mkParams]
  · show paramsDumps (mkParams names) = joinCommaSpace names
    exact paramsDumps_mkParams names
  · show ∀ p ∈ mkParams names, p.post = ""
    exact mkParams_post names

/-- Witness for C10 at the concrete two-parameter function. -/
theorem bare_names_param_rewrite_witness :
    ∃ (e1 : Span × String) (sp2 : Span) (pf2 : PythonFile) (d2 : DefNode),
      refactor_step pfStrEx "S" "T" [1, 0]
        = .ok ([e1, (sp2, joinCommaSpace ["b", "a"])], pf2)
      ∧ defAt pf2 (StepLoc.mk 0 none).nodeIdx = some d2 ∧ d2.params = mkParams ["b", "a"]
      ∧ paramsDumps d2.params = joinCommaSpace ["b", "a"]
      ∧ ∀ p ∈ d2.params, p.post = "" :=
  bare_names_param_rewrite pfStrEx "S" "T" ⟨0, none⟩ dStrEx [1, 0] ["b", "a"]
    (by rfl) (by rfl) (by rfl) (by rfl)

/-- C1: edit precision of list-element refactoring.  For a tree in which the
refactor scan for the old text a bar lands on a function whose step decorator
argument is a list literal evaluating to the strings a foo and a bar,
refactor_step with new text a baz (and the identity parameter move) locates
the second string element of the list literal, emits exactly one step-text
edit whose span is computed from the element's position, the span addresses
exactly the element's raw text in the original file, and the serialized tree
differs from the original only inside that element: the prefix (which contains
the a foo literal) and the suffix are byte-identical. -/
theorem list_elem_refactor_precision (pf : PythonFile) (loc : StepLoc) (d : DefNode)
    (dec : Decorator) (a : CallArg) (openB : String) (items : List ListItem)
    (closeB : String)
    (hf : find_step_node pf "a bar" = .ok (some loc))
    (hd : pf.py_tree[loc.nodeIdx]? = some (TopNode.def_ d))
    (hdec : d.decorators.find? (fun x => x.name == "step") = some dec)
    (ha : dec.args = [a])
    (hv : a.value = ExprNode.lst openB items closeB)
    (hpy : toPython a.value
      = some (PyVal.list [PyElem.str "a foo", PyElem.str "a bar"])) :
    loc.elemIdx = some 1
    ∧ ∃ (raw raw0 P S Pa Pb : String) (pf1 : PythonFile),
        unquote raw = some "a bar"
        ∧ get_code pf = P ++ raw ++ S
        ∧ P = Pa ++ raw0 ++ Pb ∧ unquote raw0 = some "a foo"
        ∧ refactor_step pf "a bar" "a baz" (identityMove d.params.length)
            = .ok ([(span_for_node (some (bboxOf P raw)),
                     pyReplace raw "a bar" "a baz")], pf1)
        ∧ get_code pf1 = P ++ pyReplace raw "a bar" "a baz" ++ S
        ∧ spanSlice (get_code pf) (span_for_node (some (bboxOf P raw))) = raw := by
  obtain ⟨d0, dec0, hmem, hne, hcase⟩ :=
    findStepAux_sound pf.file_path "a bar" (stepCandidates pf.py_tree) loc hf
  obtain ⟨heq0, hfind0⟩ := stepCandidates_mem pf.py_tree loc.nodeIdx d0 dec0 hmem
  have hd0 : d = d0 := by
    rw [hd] at heq0
    injection heq0 with heq0
    injection heq0
  subst hd0
  have hdec0 : dec = dec0 := by
    rw [hdec] at hfind0
    injection hfind0
  subst hdec0
  rcases hcase with ⟨helem, hs⟩ | ⟨xs, hlv, hmemxs, helem⟩
  · obtain ⟨a1, hargs1, htp1⟩ := sda_some _ dec _ hs
    rw [ha] at hargs1
    injection hargs1 with hargs1
    subst hargs1
    rw [hpy] at htp1
    injection htp1 with htp1
    exact absurd htp1 (by intro hcon; exact PyVal.noConfusion hcon)
  · obtain ⟨a1, hargs1, htp1⟩ := sda_some _ dec _ hlv
    rw [ha] at hargs1
    injection hargs1 with hargs1
    subst hargs1
    rw [hpy] at htp1
    have hxs : xs = [PyElem.str "a foo", PyElem.str "a bar"] := by
      injection htp1 with htp1
      injection htp1 with htp1
      exact htp1.symm
    subst hxs
    have hidx : pyIndex (PyElem.str "a bar")
        [PyElem.str "a foo", PyElem.str "a bar"] = 1 := by decide
    rw [hidx] at helem
    refine ⟨helem, ?_⟩
    obtain ⟨ob2, items2, cb2, hvals2, hmapm⟩ := toPython_list _ _ hpy
    have hlst : openB = ob2 ∧ items = items2 ∧ closeB = cb2 := by
      rw [hv] at hvals2
      injection hvals2 with h1 h2 h3
      exact ⟨h1, h2, h3⟩
    obtain ⟨hob, hitems, hcb⟩ := hlst
    subst hob
    subst hitems
    subst hcb
    have hx1 : ([PyElem.str "a foo", PyElem.str "a bar"] : List PyElem)[1]?
        = some (PyElem.str "a bar") := rfl
    have hx0 : ([PyElem.str "a foo", PyElem.str "a bar"] : List PyElem)[0]?
        = some (PyElem.str "a foo") := rfl
    obtain ⟨it1, hit1, hel1⟩ := mapM_some_getElem _ items _ hmapm 1 _ hx1
    obtain ⟨it0, hit0, hel0⟩ := mapM_some_getElem _ items _ hmapm 0 _ hx0
    obtain ⟨raw, hraw1, hunq1⟩ := elemToPython_str _ _ hel1
    obtain ⟨raw0, hraw0, hunq0⟩ := elemToPython_str _ _ hel0
    obtain ⟨post, hdrop⟩ := stepDec_decomp _ dec hdec
    have hp := locParts_some_lst pf loc d dec post a 1 openB items closeB it1
      hd hdrop ha helem hv hit1
    rw [hraw1] at hp
    have hpraw : elemDumps (ListElem.str raw) = raw := rfl
    rw [hpraw] at hp
    have hdef : defAt pf loc.nodeIdx = some d := by
      unfold defAt
      rw [hd]
    obtain ⟨d1, hrf, hcode1, hparams, _, _, _⟩ :=
      refactor_step_identity pf "a bar" "a baz" loc _ raw _ d hf hp hdef
    have hcode0 := locParts_split pf loc _ raw _ hp
    have hshape := unquote_shape raw "a bar" hunq1
    -- decompose the prefix around the first element's raw text
    have hitems01 : ∃ t, items = it0 :: it1 :: t := by
      match items, hit0, hit1 with
      | x :: y :: t, hit0, hit1 =>
        rw [List.getElem?_cons_zero] at hit0
        injection hit0 with hit0
        rw [List.getElem?_cons_succ, List.getElem?_cons_zero] at hit1
        injection hit1 with hit1
        subst hit0
        subst hit1
        exact ⟨t, rfl⟩
    obtain ⟨trest, hitemseq⟩ := hitems01
    have htake : items.take 1 = [it0] := by
      rw [hitemseq]
      rfl
    refine ⟨raw, raw0, _, _,
      (catList ((pf.py_tree.take loc.nodeIdx).map topDumps)
         ++ catList ((d.decorators.takeWhile notStepDec).map decDumps)
         ++ dec.pre ++ dec.name ++ dec.callOpen ++ a.pre) ++ openB ++ it0.pre,
      it0.post ++ ("," ++ it1.pre), _,
      hunq1, hcode0, ?_, hunq0, hrf, hcode1, ?_⟩
    · rw [htake]
      simp only [List.map_cons, List.map_nil, catList_cons, catList_nil, itemDumps,
        hraw0, elemDumps, String.append_empty, String.append_assoc]
    · rw [hcode0]
      exact spanSlice_bbox _ raw _ hshape.1 hshape.2

/-- Witness for C1 at the concrete list-decorated tree. -/
theorem list_elem_refactor_precision_witness :
    (StepLoc.mk 1 (some 1)).elemIdx = some 1
    ∧ ∃ (raw raw0 P S Pa Pb : String) (pf1 : PythonFile),
        unquote raw = some "a bar"
        ∧ get_code pfListEx = P ++ raw ++ S
        ∧ P = Pa ++ raw0 ++ Pb ∧ unquote raw0 = some "a foo"
        ∧ refactor_step pfListEx "a bar" "a baz" (identityMove dListEx.params.length)
            = .ok ([(span_for_node (some (bboxOf P raw)),
                     pyReplace raw "a bar" "a baz")], pf1)
        ∧ get_code pf1 = P ++ pyReplace raw "a bar" "a baz" ++ S
        ∧ spanSlice (get_code pfListEx) (span_for_node (some (bboxOf P raw))) = raw :=
  list_elem_refactor_precision pfListEx ⟨1, some 1⟩ dListEx
    ⟨"@", "step", "(",
      [⟨"", ExprNode.lst "["
        [⟨"", ListElem.str "\"a foo\"", ""⟩, ⟨" ", ListElem.str "\"a bar\"", ""⟩] "]", ""⟩],
      ")\n"⟩
    ⟨"", ExprNode.lst "["
      [⟨"", ListElem.str "\"a foo\"", ""⟩, ⟨" ", ListElem.str "\"a bar\"", ""⟩] "]", ""⟩
    "[" [⟨"", ListElem.str "\"a foo\"", ""⟩, ⟨" ", ListElem.str "\"a bar\"", ""⟩] "]"
    (by rfl) (by rfl) (by rfl) (by rfl) (by rfl) (by rfl)
